import Mathlib

/- Verification of the Grover-search core of src/qs.py.

The program builds qiskit circuits from H, X and MCX gates.  Every amplitude
reachable from the all-zero computational basis state by these gates lies in
the ring Q(sqrt 2) adjoined i, which we represent exactly and computably as a
double quadratic extension of the rationals.  Circuits are embedded as lists
of gates mirroring the Python construction functions line by line, and gate
semantics act on state vectors indexed by assignments of bits to qubits. -/

/-- Quadratic extension of a commutative ring R by a square root of d.
An element re + im * sqrt d is stored as the pair (re, im).  Instantiated
twice: rationals adjoining sqrt 2, and that ring adjoining i (d = -1). -/
@[ext]
structure Quad (R : Type) (d : R) where
  re : R
  im : R
deriving DecidableEq

namespace Quad

variable {R : Type} [CommRing R] {d : R}

/-- Addition, componentwise. -/
def addQ (x y : Quad R d) : Quad R d := ⟨x.re + y.re, x.im + y.im⟩

/-- Negation, componentwise. -/
def negQ (x : Quad R d) : Quad R d := ⟨-x.re, -x.im⟩

/-- Multiplication: (a + b w)(c + e w) = (ac + d b e) + (a e + b c) w,
where w * w = d. -/
def mulQ (x y : Quad R d) : Quad R d :=
  ⟨x.re * y.re + d * (x.im * y.im), x.re * y.im + x.im * y.re⟩

instance : Zero (Quad R d) := ⟨⟨0, 0⟩⟩
instance : One (Quad R d) := ⟨⟨1, 0⟩⟩
instance : Add (Quad R d) := ⟨addQ⟩
instance : Neg (Quad R d) := ⟨negQ⟩
instance : Mul (Quad R d) := ⟨mulQ⟩

instance instCommRing : CommRing (Quad R d) where
  add_assoc a b c := by
    apply Quad.ext
    · show a.re + b.re + c.re = a.re + (b.re + c.re); ring
    · show a.im + b.im + c.im = a.im + (b.im + c.im); ring
  zero_add a := by
    apply Quad.ext
    · show 0 + a.re = a.re; ring
    · show 0 + a.im = a.im; ring
  add_zero a := by
    apply Quad.ext
    · show a.re + 0 = a.re; ring
    · show a.im + 0 = a.im; ring
  add_comm a b := by
    apply Quad.ext
    · show a.re + b.re = b.re + a.re; ring
    · show a.im + b.im = b.im + a.im; ring
  mul_assoc a b c := by
    apply Quad.ext
    · show (a.re * b.re + d * (a.im * b.im)) * c.re +
          d * ((a.re * b.im + a.im * b.re) * c.im) =
          a.re * (b.re * c.re + d * (b.im * c.im)) +
          d * (a.im * (b.re * c.im + b.im * c.re))
      ring
    · show (a.re * b.re + d * (a.im * b.im)) * c.im +
          (a.re * b.im + a.im * b.re) * c.re =
          a.re * (b.re * c.im + b.im * c.re) +
          a.im * (b.re * c.re + d * (b.im * c.im))
      ring
  one_mul a := by
    apply Quad.ext
    · show 1 * a.re + d * (0 * a.im) = a.re; ring
    · show 1 * a.im + 0 * a.re = a.im; ring
  mul_one a := by
    apply Quad.ext
    · show a.re * 1 + d * (a.im * 0) = a.re; ring
    · show a.re * 0 + a.im * 1 = a.im; ring
  left_distrib a b c := by
    apply Quad.ext
    · show a.re * (b.re + c.re) + d * (a.im * (b.im + c.im)) =
          a.re * b.re + d * (a.im * b.im) + (a.re * c.re + d * (a.im * c.im))
      ring
    · show a.re * (b.im + c.im) + a.im * (b.re + c.re) =
          a.re * b.im + a.im * b.re + (a.re * c.im + a.im * c.re)
      ring
  right_distrib a b c := by
    apply Quad.ext
    · show (a.re + b.re) * c.re + d * ((a.im + b.im) * c.im) =
          a.re * c.re + d * (a.im * c.im) + (b.re * c.re + d * (b.im * c.im))
      ring
    · show (a.re + b.re) * c.im + (a.im + b.im) * c.re =
          a.re * c.im + a.im * c.re + (b.re * c.im + b.im * c.re)
      ring
  zero_mul a := by
    apply Quad.ext
    · show 0 * a.re + d * (0 * a.im) = 0; ring
    · show 0 * a.im + 0 * a.re = 0; ring
  mul_zero a := by
    apply Quad.ext
    · show a.re * 0 + d * (a.im * 0) = 0; ring
    · show a.re * 0 + a.im * 0 = 0; ring
  mul_comm a b := by
    apply Quad.ext
    · show a.re * b.re + d * (a.im * b.im) = b.re * a.re + d * (b.im * a.im); ring
    · show a.re * b.im + a.im * b.re = b.re * a.im + b.im * a.re; ring
  neg_add_cancel a := by
    apply Quad.ext
    · show -a.re + a.re = 0; ring
    · show -a.im + a.im = 0; ring
  nsmul := nsmulRec
  zsmul := zsmulRec
  natCast m := ⟨(m : R), 0⟩
  natCast_zero := by
    apply Quad.ext
    · show ((0 : ℕ) : R) = 0; simp
    · show (0 : R) = 0; rfl
  natCast_succ m := by
    apply Quad.ext
    · show ((m + 1 : ℕ) : R) = (m : R) + 1; simp
    · show (0 : R) = 0 + 0; ring
  intCast z := ⟨(z : R), 0⟩
  intCast_ofNat m := by
    apply Quad.ext
    · show ((Int.ofNat m : ℤ) : R) = ((m : ℕ) : R); simp
    · show (0 : R) = 0; rfl
  intCast_negSucc m := by
    apply Quad.ext
    · show ((Int.negSucc m : ℤ) : R) = -(((m + 1 : ℕ) : ℕ) : R)
      simp [Int.cast_negSucc]
    · show (0 : R) = -0; ring

/-- The canonical embedding of the base ring into the extension. -/
def base (r : R) : Quad R d := ⟨r, 0⟩

end Quad

/-- The ring of rationals adjoining sqrt 2, the component type of the
amplitude ring: re + im * sqrt 2. -/
abbrev Qsqrt2 : Type := Quad ℚ 2

/-- The amplitude ring: complex numbers over Qsqrt2, so x.re + x.im * i. -/
abbrev KC : Type := Quad Qsqrt2 (-1)

/-- Embed a rational as an element of Qsqrt2. -/
def qrat (q : ℚ) : Qsqrt2 := ⟨q, 0⟩

/-- Embed a rational as an amplitude. -/
def ratK (q : ℚ) : KC := ⟨⟨q, 0⟩, ⟨0, 0⟩⟩

/-- The amplitude 1 / sqrt 2 = (1/2) * sqrt 2, the Hadamard coefficient. -/
def sqrtHalf : KC := ⟨⟨0, 1/2⟩, ⟨0, 0⟩⟩

/-- Squared magnitude of an amplitude (a real number, living in Qsqrt2). -/
def normSq (x : KC) : Qsqrt2 := x.re * x.re + x.im * x.im

/-- The gates appearing in the circuits built by src/qs.py: qc.x(q), qc.h(q)
and qc.mcx(controls, target), with qubits named by natural-number indices as
in qiskit. -/
inductive Gate
  | x (q : ℕ)
  | h (q : ℕ)
  | mcx (controls : List ℕ) (tgt : ℕ)
deriving DecidableEq

/-- Validity of a gate on an n-qubit register: qiskit raises a circuit
construction error when an instruction references a qubit index outside the
register or repeats a qubit argument. -/
def gateOk (n : ℕ) : Gate → Bool
  | .x q => decide (q < n)
  | .h q => decide (q < n)
  | .mcx cs t => decide ((∀ c ∈ cs, c < n) ∧ t < n ∧ cs.Nodup ∧ t ∉ cs)

/-- A circuit can be constructed on n qubits exactly when all of its gates
are valid there. -/
def circuitOk (n : ℕ) (gs : List Gate) : Bool := gs.all (gateOk n)

/-- State vector over n qubits: an amplitude for each assignment of a bit to
every qubit.  Under the qiskit readout convention, the assignment v denotes
the basis index with binary digits v 0 (least significant) up to v (n-1). -/
def StateV (n : ℕ) : Type := (Fin n → Bool) → KC

/-- Sign factor (-1)^b used in the Hadamard action. -/
def phase (b : Bool) : KC := if b then -1 else 1

/-- Action of X on qubit q: amplitudes are pulled back along the bit flip. -/
def xGate {n : ℕ} (q : Fin n) (ψ : StateV n) : StateV n :=
  fun v => ψ (Function.update v q (!v q))

/-- Action of H on qubit q. -/
def hGate {n : ℕ} (q : Fin n) (ψ : StateV n) : StateV n :=
  fun v =>
    sqrtHalf *
      (ψ (Function.update v q false) + phase (v q) * ψ (Function.update v q true))

/-- All control qubits of an MCX gate read true under the assignment v
(vacuously true for an empty control list). -/
def allCtrl {n : ℕ} (cs : List ℕ) (v : Fin n → Bool) : Bool :=
  cs.all (fun c => if hc : c < n then v ⟨c, hc⟩ else false)

/-- Action of MCX: flip the target bit when every control bit is set; as a
pullback along that (involutive) permutation of basis states. -/
def mcxGate {n : ℕ} (cs : List ℕ) (q : Fin n) (ψ : StateV n) : StateV n :=
  fun v => ψ (if allCtrl cs v then Function.update v q (!v q) else v)

/-- Semantics of one gate on an n-qubit state.  A gate whose qubits fall
outside the register never arises in an executed circuit (qiskit refuses to
construct it, see gateOk); such a gate is interpreted as the identity. -/
def applyGate {n : ℕ} (g : Gate) (ψ : StateV n) : StateV n :=
  match g with
  | .x q => if hq : q < n then xGate ⟨q, hq⟩ ψ else ψ
  | .h q => if hq : q < n then hGate ⟨q, hq⟩ ψ else ψ
  | .mcx cs t =>
      if hv : (∀ c ∈ cs, c < n) ∧ t < n ∧ cs.Nodup ∧ t ∉ cs then
        mcxGate cs ⟨t, hv.2.1⟩ ψ
      else ψ

/-- Run a gate list left to right. -/
def applyGates {n : ℕ} (gs : List Gate) (ψ : StateV n) : StateV n :=
  gs.foldl (fun σ g => applyGate g σ) ψ

/-- The loop in build_grover_oracle: for i, bit in enumerate(target), apply
X to qubit i when the character is 0.  The argument k is the enumeration
index of the head of the remaining list. -/
def xLayerGates : List Bool → ℕ → List Gate
  | [], _ => []
  | b :: rest, k => (if b = false then [Gate.x k] else []) ++ xLayerGates rest (k + 1)

/-- build_grover_oracle from src/qs.py (lines 10-22), with the target given
as its list of binary characters, most significant first (true = 1). -/
def build_grover_oracle (target : List Bool) (n : ℕ) : List Gate :=
  xLayerGates target 0 ++
    [Gate.h (n - 1), Gate.mcx (List.range (n - 1)) (n - 1), Gate.h (n - 1)] ++
    xLayerGates target 0

/-- build_diffusion_operator from src/qs.py (lines 24-34). -/
def build_diffusion_operator (n : ℕ) : List Gate :=
  (List.range n).map Gate.h ++ (List.range n).map Gate.x ++
    [Gate.h (n - 1), Gate.mcx (List.range (n - 1)) (n - 1), Gate.h (n - 1)] ++
    (List.range n).map Gate.x ++ (List.range n).map Gate.h

/-- Binary digits of t, least significant first, empty for 0.  The first
argument is structural fuel, always called with fuel at least t. -/
def natToBinAux : ℕ → ℕ → List Bool
  | 0, _ => []
  | fuel + 1, t => if t = 0 then [] else decide (t % 2 = 1) :: natToBinAux fuel (t / 2)

/-- The Python expression bin(t) without prefix: binary digits of t, most
significant first (empty for 0, which never occurs unpadded below). -/
def natToBin (t : ℕ) : List Bool := (natToBinAux t t).reverse

/-- The Python expression format(target_index, zero-padded binary of width
n): most significant digit first, left-padded with zeros to width n, and
never truncated (the width grows past n when the index needs more digits,
exactly as in Python). -/
def targetBin (t n : ℕ) : List Bool :=
  List.replicate (n - (natToBin t).length) false ++ natToBin t

/-- build_grover_circuit from src/qs.py (lines 36-46); default arguments as
in the source.  measure_all is modeled separately through readout. -/
def build_grover_circuit (target_index : ℕ) (n : ℕ := 4) (iterations : ℕ := 1) :
    List Gate :=
  (List.range n).map Gate.h ++
    (List.replicate iterations
      (build_grover_oracle (targetBin target_index n) n ++
        build_diffusion_operator n)).flatten

/-- The all-zeros computational basis state, qiskit initial register state. -/
def basis0 (n : ℕ) : StateV n := fun v => if ∀ i, v i = false then 1 else 0

/-- The uniform superposition, every amplitude 1 / sqrt N. -/
def uniformState (n : ℕ) : StateV n := fun _ => sqrtHalf ^ n

/-- The all-false assignment, denoting basis index 0. -/
def zeroVec (n : ℕ) : Fin n → Bool := fun _ => false

/-- Sum of all amplitudes. -/
def sumAmp {n : ℕ} (ψ : StateV n) : KC := ∑ v : Fin n → Bool, ψ v

/-- Mean amplitude over the N = 2^n entries. -/
def meanAmp {n : ℕ} (ψ : StateV n) : KC := ratK (1 / 2 ^ n) * sumAmp ψ

/-- Total probability mass: sum of squared magnitudes. -/
def normSqSum {n : ℕ} (ψ : StateV n) : Qsqrt2 := ∑ v : Fin n → Bool, normSq (ψ v)

/-- A state is real when every amplitude has zero imaginary part. -/
def isReal {n : ℕ} (ψ : StateV n) : Prop := ∀ v, (ψ v).im = 0

/-- The integer a measured assignment denotes: int(bitstring, 2) of the
qiskit result string, whose character p is qubit n-1-p. -/
def natOfVec {n : ℕ} (v : Fin n → Bool) : ℕ := ∑ i : Fin n, cond (v i) (2 ^ (i : ℕ)) 0

/-- The assignment denoting a given integer. -/
def vecOfNat (n k : ℕ) : Fin n → Bool := fun i => k.testBit (i : ℕ)

/-- int(s, 2) on a list of binary characters, most significant first. -/
def binToNat (l : List Bool) : ℕ := l.foldl (fun a b => 2 * a + cond b 1 0) 0

/-- The qiskit measurement string of a basis assignment: qubit n-1 printed
first, qubit 0 last. -/
def readoutString {n : ℕ} (v : Fin n → Bool) : List Bool :=
  (List.finRange n).reverse.map v

/-- Reverse the n-bit binary string of t and reinterpret it as an integer. -/
def bitRevIdx (n t : ℕ) : ℕ := binToNat (targetBin t n).reverse

/-- The assignment marked by the oracle: qubit j carries character j of the
target string, that is bit n-1-j of the target index. -/
def markedVec (t n : ℕ) : Fin n → Bool := fun j => t.testBit (n - 1 - (j : ℕ))

/-- The default iteration count in the signatures of quantum_search and
build_grover_circuit (src/qs.py lines 36 and 48). -/
def defaultIterations : ℕ := 1

/-- Modelled from the spec: the iteration-count formula the specification
prescribes when the caller supplies none, floor(pi/4 * sqrt N) clamped to at
least 1.  No such computation exists in src/qs.py. -/
noncomputable def specDefaultIterations (n : ℕ) : ℕ :=
  max 1 (Nat.floor (Real.pi / 4 * Real.sqrt ((2 : ℝ) ^ n)))

/-- The Python expression max(counts, key=counts.get) on a mapping given in
iteration order: the first key attaining the maximal count (Python max keeps
the current maximum unless a strictly greater one appears). -/
def pyMaxByCount : List (ℕ × ℕ) → Option (ℕ × ℕ)
  | [] => none
  | p :: rest => some (rest.foldl (fun best q => if best.2 < q.2 then q else best) p)

/-- Result aggregation in quantum_search (src/qs.py lines 66-68): the key of
maximal count, with outcomes already read as integers. -/
def aggregateResult (counts : List (ℕ × ℕ)) : Option ℕ :=
  (pyMaxByCount counts).map Prod.fst

/-- One Grover operator application: oracle or diffusion. -/
inductive GOp
  | oracle
  | diffusion
deriving DecidableEq

/-- The gate list of one operator for target t on n qubits. -/
def opGates (t n : ℕ) : GOp → List Gate
  | .oracle => build_grover_oracle (targetBin t n) n
  | .diffusion => build_diffusion_operator n

/-- Apply a finite sequence of oracle and diffusion operators. -/
def applyOps (t n : ℕ) (ops : List GOp) (ψ : StateV n) : StateV n :=
  ops.foldl (fun σ op => applyGates (opGates t n op) σ) ψ

/-- Flip one bit of an assignment. -/
def flipOne {n : ℕ} (q : Fin n) (v : Fin n → Bool) : Fin n → Bool :=
  Function.update v q (!v q)

/-- Basis state at an assignment. -/
def eVec {n : ℕ} (w : Fin n → Bool) : StateV n := fun v => if v = w then 1 else 0

/-- Intermediate shape of the Hadamard layer acting on basis0: uniform over
the assignments supported inside S, scaled by sqrtHalf^k. -/
def partInd {n : ℕ} (S : Finset (Fin n)) (k : ℕ) : StateV n :=
  fun v => if ∀ i, i ∉ S → v i = false then sqrtHalf ^ k else 0

/-- The symmetric bilinear pairing of two states. -/
def ampBilin {n : ℕ} (φ ψ : StateV n) : KC := ∑ v : Fin n → Bool, φ v * ψ v

/-- Fold of Hadamard gates over a list of qubits. -/
def applyHList {n : ℕ} (qs : List (Fin n)) (ψ : StateV n) : StateV n :=
  qs.foldl (fun σ q => hGate q σ) ψ

/-- Fold of X gates over a list of qubits. -/
def applyXList {n : ℕ} (qs : List (Fin n)) (ψ : StateV n) : StateV n :=
  qs.foldl (fun σ q => xGate q σ) ψ

/-- Compose single-bit flips over a list of qubits. -/
def flipListF {n : ℕ} (qs : List (Fin n)) (v : Fin n → Bool) : Fin n → Bool :=
  qs.foldr flipOne v

/-- Flip the bits at positions k + i for every index i where the list holds
false; the semantic effect of xLayerGates l k. -/
def maskFlip {n : ℕ} (l : List Bool) (k : ℕ) (v : Fin n → Bool) : Fin n → Bool :=
  fun j => if k ≤ (j : ℕ) ∧ l[(j : ℕ) - k]? = some false then !v j else v j

/-- Complement every bit of an assignment. -/
def notVec {n : ℕ} (v : Fin n → Bool) : Fin n → Bool := fun i => !v i

/-- Multi-controlled Z on all qubits: flip the sign of the all-ones state. -/
def mczFull {n : ℕ} (ψ : StateV n) : StateV n :=
  fun v => if ∀ i, v i = true then -ψ v else ψ v

/-- Sign flip on the all-zeros state. -/
def flipZeroState {n : ℕ} (ψ : StateV n) : StateV n :=
  fun v => if ∀ i, v i = false then -ψ v else ψ v

/-- Sign flip at one designated assignment. -/
def flipAt {n : ℕ} (w : Fin n → Bool) (ψ : StateV n) : StateV n :=
  fun v => if v = w then -ψ v else ψ v

namespace Quad

variable {R : Type} [CommRing R] {d : R}

@[simp] theorem add_re (x y : Quad R d) : (x + y).re = x.re + y.re := rfl

@[simp] theorem add_im (x y : Quad R d) : (x + y).im = x.im + y.im := rfl

@[simp] theorem mul_re (x y : Quad R d) : (x * y).re = x.re * y.re + d * (x.im * y.im) := rfl

@[simp] theorem mul_im (x y : Quad R d) : (x * y).im = x.re * y.im + x.im * y.re := rfl

@[simp] theorem neg_re (x : Quad R d) : (-x).re = -x.re := rfl

@[simp] theorem neg_im (x : Quad R d) : (-x).im = -x.im := rfl

@[simp] theorem zero_re : (0 : Quad R d).re = 0 := rfl

@[simp] theorem zero_im : (0 : Quad R d).im = 0 := rfl

@[simp] theorem one_re : (1 : Quad R d).re = 1 := rfl

@[simp] theorem one_im : (1 : Quad R d).im = 0 := rfl

@[simp] theorem sub_re (x y : Quad R d) : (x - y).re = x.re - y.re := by
  rw [sub_eq_add_neg, sub_eq_add_neg, add_re, neg_re]

@[simp] theorem sub_im (x y : Quad R d) : (x - y).im = x.im - y.im := by
  rw [sub_eq_add_neg, sub_eq_add_neg, add_im, neg_im]

@[simp] theorem natCast_re (m : ℕ) : ((m : ℕ) : Quad R d).re = (m : R) := rfl

@[simp] theorem natCast_im (m : ℕ) : ((m : ℕ) : Quad R d).im = 0 := rfl

end Quad

@[simp] theorem qrat_re (q : ℚ) : (qrat q).re = q := rfl

@[simp] theorem qrat_im (q : ℚ) : (qrat q).im = 0 := rfl

@[simp] theorem ratK_re (q : ℚ) : (ratK q).re = qrat q := rfl

@[simp] theorem ratK_im (q : ℚ) : (ratK q).im = 0 := rfl

theorem qrat_add (a b : ℚ) : qrat a + qrat b = qrat (a + b) := by
  apply Quad.ext <;> simp

theorem qrat_mul (a b : ℚ) : qrat a * qrat b = qrat (a * b) := by
  apply Quad.ext <;> simp

theorem qrat_neg (a : ℚ) : -qrat a = qrat (-a) := by
  apply Quad.ext <;> simp

theorem qrat_zero : qrat 0 = 0 := rfl

theorem qrat_one : qrat 1 = 1 := rfl

theorem qrat_inj {a b : ℚ} (h : qrat a = qrat b) : a = b := by
  have := congrArg Quad.re h
  simpa using this

theorem ratK_add (a b : ℚ) : ratK a + ratK b = ratK (a + b) := by
  apply Quad.ext <;> apply Quad.ext <;> simp

theorem ratK_mul (a b : ℚ) : ratK a * ratK b = ratK (a * b) := by
  apply Quad.ext <;> apply Quad.ext <;> simp

theorem ratK_neg (a : ℚ) : -ratK a = ratK (-a) := by
  apply Quad.ext <;> apply Quad.ext <;> simp

theorem ratK_sub (a b : ℚ) : ratK a - ratK b = ratK (a - b) := by
  apply Quad.ext <;> apply Quad.ext <;> simp [sub_eq_add_neg]

theorem ratK_zero : ratK 0 = 0 := rfl

theorem ratK_one : ratK 1 = 1 := rfl

theorem ratK_inj {a b : ℚ} (h : ratK a = ratK b) : a = b := by
  have := congrArg (fun z => (Quad.re (Quad.re z))) h
  simpa using this

theorem sqrtHalf_mul_self : sqrtHalf * sqrtHalf = ratK (1 / 2) := by
  apply Quad.ext <;> apply Quad.ext <;> norm_num [sqrtHalf, ratK]

theorem two_mul_sqrtHalf_sq : ratK 2 * (sqrtHalf * sqrtHalf) = 1 := by
  rw [sqrtHalf_mul_self, ratK_mul]
  norm_num [ratK_one]

theorem ratK_pow (a : ℚ) (m : ℕ) : ratK a ^ m = ratK (a ^ m) := by
  induction m with
  | zero => simp [ratK_one]
  | succ k ih => rw [pow_succ, pow_succ, ih, ratK_mul]

theorem sqrtHalf_pow_two_mul (m : ℕ) : sqrtHalf ^ (2 * m) = ratK ((1 / 2) ^ m) := by
  rw [pow_mul, sq, sqrtHalf_mul_self, ratK_pow]

theorem normSq_mul (x y : KC) : normSq (x * y) = normSq x * normSq y := by
  simp only [normSq, Quad.mul_re, Quad.mul_im]
  ring

theorem normSq_neg (x : KC) : normSq (-x) = normSq x := by
  simp only [normSq, Quad.neg_re, Quad.neg_im]
  ring

theorem normSq_ratK (q : ℚ) : normSq (ratK q) = qrat (q * q) := by
  simp only [normSq, ratK_re, ratK_im]
  apply Quad.ext <;> simp [qrat_mul]

theorem normSq_sqrtHalf : normSq sqrtHalf = qrat (1 / 2) := by
  apply Quad.ext <;> norm_num [normSq, sqrtHalf, qrat]

theorem normSq_one : normSq 1 = 1 := by
  simp only [normSq, Quad.one_re, Quad.one_im]
  apply Quad.ext <;> simp

theorem normSq_zero : normSq 0 = 0 := by
  simp only [normSq, Quad.zero_re, Quad.zero_im]
  apply Quad.ext <;> simp

@[simp] theorem phase_false : phase false = 1 := rfl

@[simp] theorem phase_true : phase true = -1 := rfl

theorem sqrtHalf_sq_add : sqrtHalf * sqrtHalf + sqrtHalf * sqrtHalf = 1 := by
  apply Quad.ext <;> apply Quad.ext <;> norm_num [sqrtHalf]

theorem applyGates_nil {n : ℕ} (ψ : StateV n) : applyGates ([] : List Gate) ψ = ψ := rfl

theorem applyGates_cons {n : ℕ} (g : Gate) (gs : List Gate) (ψ : StateV n) :
    applyGates (g :: gs) ψ = applyGates gs (applyGate g ψ) := rfl

theorem applyGates_append {n : ℕ} (gs₁ gs₂ : List Gate) (ψ : StateV n) :
    applyGates (gs₁ ++ gs₂) ψ = applyGates gs₂ (applyGates gs₁ ψ) := by
  simp [applyGates, List.foldl_append]

theorem applyGate_h {n : ℕ} {q : ℕ} (hq : q < n) (ψ : StateV n) :
    applyGate (Gate.h q) ψ = hGate ⟨q, hq⟩ ψ := dif_pos hq

theorem applyGate_x {n : ℕ} {q : ℕ} (hq : q < n) (ψ : StateV n) :
    applyGate (Gate.x q) ψ = xGate ⟨q, hq⟩ ψ := dif_pos hq

theorem applyGate_mcx {n : ℕ} {cs : List ℕ} {t : ℕ}
    (hv : (∀ c ∈ cs, c < n) ∧ t < n ∧ cs.Nodup ∧ t ∉ cs) (ψ : StateV n) :
    applyGate (Gate.mcx cs t) ψ = mcxGate cs ⟨t, hv.2.1⟩ ψ := dif_pos hv

theorem applyHList_cons {n : ℕ} (q : Fin n) (qs : List (Fin n)) (ψ : StateV n) :
    applyHList (q :: qs) ψ = applyHList qs (hGate q ψ) := rfl

theorem applyHList_append {n : ℕ} (l₁ l₂ : List (Fin n)) (ψ : StateV n) :
    applyHList (l₁ ++ l₂) ψ = applyHList l₂ (applyHList l₁ ψ) := by
  simp [applyHList, List.foldl_append]

theorem applyXList_cons {n : ℕ} (q : Fin n) (qs : List (Fin n)) (ψ : StateV n) :
    applyXList (q :: qs) ψ = applyXList qs (xGate q ψ) := rfl

theorem applyGates_map_h {n : ℕ} (l : List (Fin n)) (ψ : StateV n) :
    applyGates (l.map (fun q => Gate.h q.val)) ψ = applyHList l ψ := by
  induction l generalizing ψ with
  | nil => rfl
  | cons q rest ih =>
      rw [List.map_cons, applyGates_cons, applyGate_h q.isLt, Fin.eta, applyHList_cons, ih]

theorem applyGates_map_x {n : ℕ} (l : List (Fin n)) (ψ : StateV n) :
    applyGates (l.map (fun q => Gate.x q.val)) ψ = applyXList l ψ := by
  induction l generalizing ψ with
  | nil => rfl
  | cons q rest ih =>
      rw [List.map_cons, applyGates_cons, applyGate_x q.isLt, Fin.eta, applyXList_cons, ih]

theorem range_map_h (n : ℕ) :
    (List.range n).map Gate.h = (List.finRange n).map (fun q => Gate.h q.val) := by
  rw [← List.map_coe_finRange, List.map_map]
  rfl

theorem range_map_x (n : ℕ) :
    (List.range n).map Gate.x = (List.finRange n).map (fun q => Gate.x q.val) := by
  rw [← List.map_coe_finRange, List.map_map]
  rfl

theorem hGate_hGate {n : ℕ} (q : Fin n) (ψ : StateV n) : hGate q (hGate q ψ) = ψ := by
  funext v
  simp only [hGate, Function.update_same, Function.update_idem]
  cases hb : v q with
  | false =>
      have hv0 : Function.update v q false = v := by
        rw [← hb]; exact Function.update_eq_self q v
      rw [hv0]
      simp only [phase_false, phase_true, one_mul]
      linear_combination (ψ v) * sqrtHalf_sq_add
  | true =>
      have hv1 : Function.update v q true = v := by
        rw [← hb]; exact Function.update_eq_self q v
      rw [hv1]
      simp only [phase_false, phase_true, one_mul]
      linear_combination (ψ v) * sqrtHalf_sq_add

theorem hGate_comm {n : ℕ} {q p : Fin n} (hqp : q ≠ p) (ψ : StateV n) :
    hGate q (hGate p ψ) = hGate p (hGate q ψ) := by
  funext v
  simp only [hGate, Function.update_noteq hqp, Function.update_noteq (Ne.symm hqp),
    Function.update_comm hqp]
  ring

theorem hGate_applyHList {n : ℕ} {q : Fin n} {qs : List (Fin n)} (hq : q ∉ qs)
    (ψ : StateV n) : applyHList qs (hGate q ψ) = hGate q (applyHList qs ψ) := by
  induction qs generalizing ψ with
  | nil => rfl
  | cons p rest ih =>
      have hqp : q ≠ p := fun hc => hq (hc ▸ List.mem_cons_self p rest)
      have hqr : q ∉ rest := fun hc => hq (List.mem_cons_of_mem p hc)
      rw [applyHList_cons, applyHList_cons, ← hGate_comm hqp, ih hqr]

theorem applyHList_involutive {n : ℕ} {qs : List (Fin n)} (hnd : qs.Nodup)
    (ψ : StateV n) : applyHList qs (applyHList qs ψ) = ψ := by
  induction qs generalizing ψ with
  | nil => rfl
  | cons q rest ih =>
      have hq : q ∉ rest := (List.nodup_cons.mp hnd).1
      have hr : rest.Nodup := (List.nodup_cons.mp hnd).2
      rw [applyHList_cons, applyHList_cons]
      simp only [hGate_applyHList hq]
      rw [hGate_hGate, ih hr]

theorem sum_split {n : ℕ} {M : Type} [AddCommMonoid M] (q : Fin n)
    (f : (Fin n → Bool) → M) :
    ∑ v : Fin n → Bool, f v =
      ∑ v ∈ Finset.univ.filter (fun v : Fin n → Bool => v q = false),
        (f v + f (Function.update v q true)) := by
  rw [Finset.sum_add_distrib,
    ← Finset.sum_filter_add_sum_filter_not Finset.univ
      (fun v : Fin n → Bool => v q = false) f]
  congr 1
  refine Finset.sum_nbij' (fun v => Function.update v q false)
    (fun v => Function.update v q true) ?_ ?_ ?_ ?_ ?_
  · intro a ha
    simp [Finset.mem_filter, Function.update_same]
  · intro a ha
    simp only [Finset.mem_filter, Finset.mem_univ, true_and] at ha ⊢
    simp [Function.update_same]
  · intro a ha
    simp only [Finset.mem_filter, Finset.mem_univ, true_and] at ha
    have haq : a q = true := by
      cases hq : a q
      · exact absurd hq ha
      · rfl
    show Function.update (Function.update a q false) q true = a
    rw [Function.update_idem, ← haq]
    exact Function.update_eq_self q a
  · intro a ha
    simp only [Finset.mem_filter, Finset.mem_univ, true_and] at ha
    show Function.update (Function.update a q true) q false = a
    rw [Function.update_idem, ← ha]
    exact Function.update_eq_self q a
  · intro a ha
    simp only [Finset.mem_filter, Finset.mem_univ, true_and] at ha
    have haq : a q = true := by
      cases hq : a q
      · exact absurd hq ha
      · rfl
    rw [Function.update_idem]
    congr 1
    conv_lhs => rw [← Function.update_eq_self q a, haq]

theorem hGate_at_false {n : ℕ} (q : Fin n) (ψ : StateV n) (v : Fin n → Bool)
    (hv : v q = false) :
    hGate q ψ v = sqrtHalf * (ψ v + ψ (Function.update v q true)) := by
  have hv0 : Function.update v q false = v := by
    rw [← hv]; exact Function.update_eq_self q v
  simp only [hGate, hv, phase_false, one_mul, hv0]

theorem hGate_at_true {n : ℕ} (q : Fin n) (ψ : StateV n) (v : Fin n → Bool)
    (hv : v q = false) :
    hGate q ψ (Function.update v q true) =
      sqrtHalf * (ψ v - ψ (Function.update v q true)) := by
  have hv0 : Function.update v q false = v := by
    rw [← hv]; exact Function.update_eq_self q v
  simp only [hGate, Function.update_same, Function.update_idem, phase_true, hv0]
  ring

theorem ampBilin_hGate {n : ℕ} (q : Fin n) (φ ψ : StateV n) :
    ampBilin φ (hGate q ψ) = ampBilin (hGate q φ) ψ := by
  unfold ampBilin
  rw [sum_split q (fun v => φ v * hGate q ψ v),
    sum_split q (fun v => hGate q φ v * ψ v)]
  apply Finset.sum_congr rfl
  intro v hv
  have hvq : v q = false := (Finset.mem_filter.mp hv).2
  rw [hGate_at_false q ψ v hvq, hGate_at_true q ψ v hvq,
    hGate_at_false q φ v hvq, hGate_at_true q φ v hvq]
  ring

theorem ampBilin_eVec {n : ℕ} (w : Fin n → Bool) (ψ : StateV n) :
    ampBilin (eVec w) ψ = ψ w := by
  unfold ampBilin eVec
  simp only [ite_mul, one_mul, zero_mul]
  rw [Finset.sum_ite_eq' Finset.univ w ψ]
  simp

theorem ampBilin_applyHList {n : ℕ} (qs : List (Fin n)) (φ ψ : StateV n) :
    ampBilin φ (applyHList qs ψ) = ampBilin (applyHList qs.reverse φ) ψ := by
  induction qs generalizing φ ψ with
  | nil => rfl
  | cons q rest ih =>
      rw [applyHList_cons, ih, ampBilin_hGate, List.reverse_cons, applyHList_append]
      rfl

theorem hGate_partInd {n : ℕ} {q : Fin n} {S : Finset (Fin n)} (hq : q ∉ S) (k : ℕ) :
    hGate q (partInd S k) = partInd (insert q S) (k + 1) := by
  funext v
  simp only [hGate, partInd]
  by_cases hc : ∀ i, i ∉ insert q S → v i = false
  · have h1 : ∀ i, i ∉ S → Function.update v q false i = false := by
      intro i hi
      by_cases hiq : i = q
      · subst hiq; simp [Function.update_same]
      · rw [Function.update_noteq hiq]
        exact hc i (by simp [Finset.mem_insert, hiq, hi])
    have h2 : ¬ ∀ i, i ∉ S → Function.update v q true i = false := by
      intro hcon
      have := hcon q hq
      simp [Function.update_same] at this
    rw [if_pos hc, if_pos h1, if_neg h2, pow_succ]
    ring
  · push_neg at hc
    obtain ⟨i, hi, hvi⟩ := hc
    have hiq : i ≠ q := fun hh => hi (hh ▸ Finset.mem_insert_self q S)
    have hiS : i ∉ S := fun hh => hi (Finset.mem_insert_of_mem hh)
    have h1 : ¬ ∀ j, j ∉ S → Function.update v q false j = false := by
      intro hcon
      have := hcon i hiS
      rw [Function.update_noteq hiq] at this
      exact hvi this
    have h2 : ¬ ∀ j, j ∉ S → Function.update v q true j = false := by
      intro hcon
      have := hcon i hiS
      rw [Function.update_noteq hiq] at this
      exact hvi this
    rw [if_neg h1, if_neg h2, if_neg (by push_neg; exact ⟨i, hi, hvi⟩)]
    ring

theorem applyHList_partInd {n : ℕ} :
    ∀ (qs : List (Fin n)) (S : Finset (Fin n)) (k : ℕ), qs.Nodup →
      (∀ q ∈ qs, q ∉ S) →
      applyHList qs (partInd S k) = partInd (S ∪ qs.toFinset) (k + qs.length) := by
  intro qs
  induction qs with
  | nil =>
      intro S k _ _
      simp only [applyHList, List.foldl_nil, List.toFinset_nil, Finset.union_empty,
        List.length_nil, Nat.add_zero]
  | cons q rest ih =>
      intro S k hnd hdis
      rw [applyHList_cons, hGate_partInd (hdis q (List.mem_cons_self q rest)) k,
        ih (insert q S) (k + 1) (List.nodup_cons.mp hnd).2 ?_]
      · have hS : insert q S ∪ rest.toFinset = S ∪ (q :: rest).toFinset := by
          ext j
          simp only [Finset.mem_insert, Finset.mem_union, List.toFinset_cons,
            List.mem_toFinset]
          tauto
        have hk : k + 1 + rest.length = k + (q :: rest).length := by
          simp only [List.length_cons]; omega
        rw [hS, hk]
      · intro p hp hmem
        rcases Finset.mem_insert.mp hmem with hh | hh
        · exact (List.nodup_cons.mp hnd).1 (hh ▸ hp)
        · exact hdis p (List.mem_cons_of_mem q hp) hh

theorem basis0_eq_partInd (n : ℕ) : basis0 n = partInd (∅ : Finset (Fin n)) 0 := by
  funext v
  simp [basis0, partInd]

theorem partInd_univ (n k : ℕ) :
    partInd (Finset.univ : Finset (Fin n)) k = fun _ => sqrtHalf ^ k := by
  funext v
  simp [partInd]

theorem basis0_eq_eVec (n : ℕ) : basis0 n = eVec (zeroVec n) := by
  funext v
  have hiff : (∀ i, v i = false) ↔ v = zeroVec n :=
    ⟨fun hp => funext hp, fun hp i => congrFun hp i⟩
  simp only [basis0, eVec, zeroVec]
  exact if_congr hiff rfl rfl

theorem applyHList_basis0 (n : ℕ) :
    applyHList (List.finRange n) (basis0 n) = uniformState n := by
  rw [basis0_eq_partInd,
    applyHList_partInd (List.finRange n) ∅ 0 (List.nodup_finRange n) (by simp)]
  have h1 : (∅ : Finset (Fin n)) ∪ (List.finRange n).toFinset = Finset.univ := by
    ext j
    simp [List.mem_toFinset, List.mem_finRange]
  rw [h1, List.length_finRange, Nat.zero_add, partInd_univ]
  rfl

theorem applyHList_reverse_basis0 (n : ℕ) :
    applyHList (List.finRange n).reverse (basis0 n) = uniformState n := by
  rw [basis0_eq_partInd,
    applyHList_partInd (List.finRange n).reverse ∅ 0
      (List.nodup_reverse.mpr (List.nodup_finRange n)) (by simp)]
  have h1 : (∅ : Finset (Fin n)) ∪ (List.finRange n).reverse.toFinset = Finset.univ := by
    ext j
    simp [List.mem_toFinset, List.mem_reverse, List.mem_finRange]
  rw [h1, List.length_reverse, List.length_finRange, Nat.zero_add, partInd_univ]
  rfl

theorem applyHList_zeroRow {n : ℕ} (ψ : StateV n) :
    applyHList (List.finRange n) ψ (zeroVec n) = sqrtHalf ^ n * sumAmp ψ := by
  have h1 : applyHList (List.finRange n) ψ (zeroVec n) =
      ampBilin (eVec (zeroVec n)) (applyHList (List.finRange n) ψ) :=
    (ampBilin_eVec _ _).symm
  rw [h1, ampBilin_applyHList, ← basis0_eq_eVec, applyHList_reverse_basis0]
  unfold ampBilin sumAmp uniformState
  rw [← Finset.mul_sum]

theorem hGate_add {n : ℕ} (q : Fin n) (φ ψ : StateV n) :
    hGate q (fun v => φ v + ψ v) = fun v => hGate q φ v + hGate q ψ v := by
  funext v
  simp only [hGate]
  ring

theorem hGate_smul {n : ℕ} (q : Fin n) (c : KC) (ψ : StateV n) :
    hGate q (fun v => c * ψ v) = fun v => c * hGate q ψ v := by
  funext v
  simp only [hGate]
  ring

theorem applyHList_add {n : ℕ} (qs : List (Fin n)) (φ ψ : StateV n) :
    applyHList qs (fun v => φ v + ψ v) = fun v => applyHList qs φ v + applyHList qs ψ v := by
  induction qs generalizing φ ψ with
  | nil => rfl
  | cons q rest ih =>
      rw [applyHList_cons, hGate_add, ih, applyHList_cons, applyHList_cons]

theorem applyHList_smul {n : ℕ} (qs : List (Fin n)) (c : KC) (ψ : StateV n) :
    applyHList qs (fun v => c * ψ v) = fun v => c * applyHList qs ψ v := by
  induction qs generalizing ψ with
  | nil => rfl
  | cons q rest ih =>
      rw [applyHList_cons, hGate_smul, ih, applyHList_cons]

theorem applyXList_eq_flip {n : ℕ} (qs : List (Fin n)) (ψ : StateV n) :
    applyXList qs ψ = fun v => ψ (flipListF qs v) := by
  induction qs generalizing ψ with
  | nil => rfl
  | cons q rest ih =>
      rw [applyXList_cons, ih]
      rfl

theorem flipListF_apply {n : ℕ} {qs : List (Fin n)} (hnd : qs.Nodup)
    (v : Fin n → Bool) (i : Fin n) :
    flipListF qs v i = if i ∈ qs then !v i else v i := by
  induction qs with
  | nil => simp [flipListF]
  | cons q rest ih =>
      have hq : q ∉ rest := (List.nodup_cons.mp hnd).1
      have hr : rest.Nodup := (List.nodup_cons.mp hnd).2
      show flipOne q (flipListF rest v) i = _
      by_cases hiq : i = q
      · subst hiq
        simp only [flipOne, Function.update_same, ih hr, List.mem_cons, true_or, if_true]
        rw [if_neg hq]
      · simp only [flipOne, Function.update_noteq hiq, ih hr, List.mem_cons]
        simp [hiq]

theorem applyXList_finRange {n : ℕ} (ψ : StateV n) :
    applyXList (List.finRange n) ψ = fun v => ψ (notVec v) := by
  rw [applyXList_eq_flip]
  funext v
  congr 1
  funext i
  rw [flipListF_apply (List.nodup_finRange n) v i, if_pos (List.mem_finRange i)]
  rfl

theorem allCtrl_update {n : ℕ} (cs : List ℕ) (t : Fin n)
    (hct : ∀ c ∈ cs, c ≠ (t : ℕ)) (v : Fin n → Bool) (b : Bool) :
    allCtrl cs (Function.update v t b) = allCtrl cs v := by
  unfold allCtrl
  induction cs with
  | nil => rfl
  | cons c rest ih =>
      rw [List.all_cons, List.all_cons,
        ih (fun p hp => hct p (List.mem_cons_of_mem c hp))]
      congr 1
      by_cases hc : c < n
      · rw [dif_pos hc, dif_pos hc]
        rw [Function.update_noteq]
        intro hh
        exact hct c (List.mem_cons_self c rest) (by rw [← hh])
      · rw [dif_neg hc, dif_neg hc]

theorem hGate_mcx_hGate {n : ℕ} (t : Fin n) (cs : List ℕ)
    (hct : ∀ c ∈ cs, c ≠ (t : ℕ))
    (hcond : ∀ v : Fin n → Bool, (allCtrl cs v = true ∧ v t = true) ↔ ∀ i, v i = true)
    (ψ : StateV n) :
    hGate t (mcxGate cs t (hGate t ψ)) = mczFull ψ := by
  funext v
  have hu0 : Function.update v t false t = false := Function.update_same t false v
  have hχ0 : hGate t ψ (Function.update v t false) =
      sqrtHalf * (ψ (Function.update v t false) + ψ (Function.update v t true)) := by
    have h := hGate_at_false t ψ (Function.update v t false) hu0
    rw [Function.update_idem] at h
    exact h
  have hχ1 : hGate t ψ (Function.update v t true) =
      sqrtHalf * (ψ (Function.update v t false) - ψ (Function.update v t true)) := by
    have h := hGate_at_true t ψ (Function.update v t false) hu0
    rw [Function.update_idem] at h
    exact h
  have hM0 : mcxGate cs t (hGate t ψ) (Function.update v t false) =
      (if allCtrl cs v = true then hGate t ψ (Function.update v t true)
        else hGate t ψ (Function.update v t false)) := by
    unfold mcxGate
    rw [allCtrl_update cs t hct v false]
    by_cases hco : allCtrl cs v = true
    · rw [if_pos hco, if_pos hco]
      congr 1
      rw [Function.update_same, Function.update_idem]
      rfl
    · rw [if_neg hco, if_neg hco]
  have hM1 : mcxGate cs t (hGate t ψ) (Function.update v t true) =
      (if allCtrl cs v = true then hGate t ψ (Function.update v t false)
        else hGate t ψ (Function.update v t true)) := by
    unfold mcxGate
    rw [allCtrl_update cs t hct v true]
    by_cases hco : allCtrl cs v = true
    · rw [if_pos hco, if_pos hco]
      congr 1
      rw [Function.update_same, Function.update_idem]
      rfl
    · rw [if_neg hco, if_neg hco]
  show sqrtHalf * (mcxGate cs t (hGate t ψ) (Function.update v t false) +
      phase (v t) * mcxGate cs t (hGate t ψ) (Function.update v t true)) = mczFull ψ v
  rw [hM0, hM1]
  by_cases hco : allCtrl cs v = true
  · rw [if_pos hco, if_pos hco, hχ0, hχ1]
    cases hvt : v t with
    | false =>
        have hv0 : Function.update v t false = v := by
          rw [← hvt]; exact Function.update_eq_self t v
        have hnotall : ¬ ∀ i, v i = true := by
          intro hall
          rw [hall t] at hvt
          exact Bool.noConfusion hvt
        rw [hv0]
        unfold mczFull
        rw [if_neg hnotall]
        simp only [phase_false, one_mul]
        linear_combination (ψ v) * sqrtHalf_sq_add
    | true =>
        have hv1 : Function.update v t true = v := by
          rw [← hvt]; exact Function.update_eq_self t v
        have hall : ∀ i, v i = true := (hcond v).mp ⟨hco, hvt⟩
        rw [hv1]
        unfold mczFull
        rw [if_pos hall]
        simp only [phase_true]
        linear_combination (-(ψ v)) * sqrtHalf_sq_add
  · rw [if_neg hco, if_neg hco]
    have hnotall : ¬ ∀ i, v i = true := by
      intro hall
      exact hco (((hcond v).mpr hall).1)
    unfold mczFull
    rw [if_neg hnotall]
    exact congrFun (hGate_hGate t ψ) v

theorem range_pred_hcond {n : ℕ} (hn : 1 ≤ n) (v : Fin n → Bool) :
    (allCtrl (List.range (n - 1)) v = true ∧ v ⟨n - 1, Nat.sub_lt hn Nat.one_pos⟩ = true) ↔
      ∀ i, v i = true := by
  constructor
  · rintro ⟨hA, hT⟩ i
    by_cases hi : (i : ℕ) = n - 1
    · have : i = ⟨n - 1, Nat.sub_lt hn Nat.one_pos⟩ := Fin.ext hi
      rw [this]
      exact hT
    · have hlt : (i : ℕ) < n - 1 := by
        have := i.isLt
        omega
      have h := List.all_eq_true.mp hA (i : ℕ) (List.mem_range.mpr hlt)
      rw [dif_pos i.isLt] at h
      simpa using h
  · intro hall
    refine ⟨?_, hall _⟩
    rw [allCtrl, List.all_eq_true]
    intro c hc
    have hcn : c < n := by
      have := List.mem_range.mp hc
      omega
    rw [dif_pos hcn]
    exact hall _

theorem applyGates_hmcxh {n : ℕ} (hn : 1 ≤ n) (ψ : StateV n) :
    applyGates [Gate.h (n - 1), Gate.mcx (List.range (n - 1)) (n - 1), Gate.h (n - 1)] ψ =
      mczFull ψ := by
  have h1 : n - 1 < n := Nat.sub_lt hn Nat.one_pos
  have hv : (∀ c ∈ List.range (n - 1), c < n) ∧ (n - 1) < n ∧
      (List.range (n - 1)).Nodup ∧ (n - 1) ∉ List.range (n - 1) := by
    refine ⟨fun c hc => ?_, h1, List.nodup_range _, by simp [List.mem_range]⟩
    have := List.mem_range.mp hc
    omega
  rw [applyGates_cons, applyGates_cons, applyGates_cons, applyGates_nil,
    applyGate_h h1, applyGate_mcx hv, applyGate_h h1]
  exact hGate_mcx_hGate ⟨n - 1, h1⟩ (List.range (n - 1))
    (fun c hc => by
      show c ≠ n - 1
      have := List.mem_range.mp hc
      omega)
    (range_pred_hcond hn) ψ

theorem natToBinAux_getElem {fuel t : ℕ} (hf : t ≤ fuel) (i : ℕ) :
    (natToBinAux fuel t)[i]? = if 2 ^ i ≤ t then some (t.testBit i) else none := by
  induction fuel generalizing t i with
  | zero =>
      have ht0 : t = 0 := Nat.le_zero.mp hf
      subst ht0
      have h2 : 0 < 2 ^ i := Nat.pos_pow_of_pos i (by norm_num)
      simp only [natToBinAux, List.getElem?_nil]
      rw [if_neg (by omega)]
  | succ fuel ih =>
      by_cases ht0 : t = 0
      · subst ht0
        have h2 : 0 < 2 ^ i := Nat.pos_pow_of_pos i (by norm_num)
        rw [show natToBinAux (fuel + 1) 0 = [] from by rw [natToBinAux]; exact if_pos rfl]
        rw [List.getElem?_nil, if_neg (by omega)]
      · rw [natToBinAux, if_neg ht0]
        cases i with
        | zero =>
            rw [List.getElem?_cons_zero, pow_zero, if_pos (by omega),
              Nat.testBit_zero]
        | succ j =>
            have hdiv : t / 2 ≤ fuel := by
              have h1 : t / 2 < t := Nat.div_lt_self (by omega) (by norm_num)
              omega
            rw [List.getElem?_cons_succ, ih hdiv j, Nat.testBit_succ]
            have hiff : (2 ^ j ≤ t / 2) ↔ (2 ^ (j + 1) ≤ t) := by
              rw [Nat.le_div_iff_mul_le (by norm_num : 0 < 2), pow_succ]
            rw [if_congr hiff rfl rfl]

theorem natToBin_length_le {t n : ℕ} (ht : t < 2 ^ n) : (natToBin t).length ≤ n := by
  have h := natToBinAux_getElem (le_refl t) n
  rw [if_neg (by omega)] at h
  have := List.getElem?_eq_none_iff.mp h
  unfold natToBin
  rw [List.length_reverse]
  exact this

theorem lt_two_pow_natToBin_length (t : ℕ) : t < 2 ^ (natToBin t).length := by
  by_contra hcon
  push_neg at hcon
  have h := natToBinAux_getElem (le_refl t) (natToBin t).length
  rw [if_pos hcon] at h
  have hlen : (natToBinAux t t).length ≤ (natToBin t).length := by
    unfold natToBin
    rw [List.length_reverse]
  rw [List.getElem?_eq_none_iff.mpr hlen] at h
  exact Option.noConfusion h

theorem targetBin_length {n t : ℕ} (ht : t < 2 ^ n) : (targetBin t n).length = n := by
  have hlen := natToBin_length_le ht
  unfold targetBin
  rw [List.length_append, List.length_replicate]
  omega

theorem targetBin_getElem {n t : ℕ} (ht : t < 2 ^ n) {j : ℕ} (hj : j < n) :
    (targetBin t n)[j]? = some (t.testBit (n - 1 - j)) := by
  have hlen := natToBin_length_le ht
  unfold targetBin
  by_cases hpad : j < n - (natToBin t).length
  · rw [List.getElem?_append]
    rw [if_pos (by rw [List.length_replicate]; exact hpad)]
    rw [List.getElem?_replicate, if_pos hpad]
    have hbit : t.testBit (n - 1 - j) = false := by
      apply Nat.testBit_eq_false_of_lt
      calc t < 2 ^ (natToBin t).length := lt_two_pow_natToBin_length t
        _ ≤ 2 ^ (n - 1 - j) := Nat.pow_le_pow_right (by norm_num) (by omega)
    rw [hbit]
  · have hge : n - (natToBin t).length ≤ j := by omega
    rw [List.getElem?_append_right (by rw [List.length_replicate]; exact hge),
      List.length_replicate]
    have hnb : natToBin t = (natToBinAux t t).reverse := rfl
    have hauxlen : (natToBinAux t t).length = (natToBin t).length := by
      rw [hnb, List.length_reverse]
    have hcond : 2 ^ (n - 1 - j) ≤ t := by
      by_contra hcon
      push_neg at hcon
      have hlt : n - 1 - j < (natToBin t).length := by omega
      have h2 := natToBinAux_getElem (le_refl t) (n - 1 - j)
      rw [if_neg (by omega)] at h2
      have h3 := List.getElem?_eq_none_iff.mp h2
      omega
    rw [hnb]
    simp only [List.length_reverse]
    rw [List.getElem?_reverse (by omega)]
    have hidx : (natToBinAux t t).length - 1 - (j - (n - (natToBinAux t t).length)) =
        n - 1 - j := by omega
    rw [hidx, natToBinAux_getElem (le_refl t) (n - 1 - j), if_pos hcond]

theorem maskFlip_cons_false {n : ℕ} (rest : List Bool) (k : ℕ) (hk : k < n)
    (v : Fin n → Bool) :
    maskFlip (false :: rest) k v =
      Function.update (maskFlip rest (k + 1) v) ⟨k, hk⟩
        (!(maskFlip rest (k + 1) v ⟨k, hk⟩)) := by
  funext j
  by_cases hjk : (j : ℕ) = k
  · have hj : j = ⟨k, hk⟩ := Fin.ext hjk
    subst hj
    rw [Function.update_same]
    show (if k ≤ k ∧ (false :: rest)[k - k]? = some false then !v ⟨k, hk⟩ else v ⟨k, hk⟩) = _
    rw [Nat.sub_self, List.getElem?_cons_zero, if_pos ⟨le_refl k, rfl⟩]
    show _ = !(if k + 1 ≤ k ∧ rest[k - (k + 1)]? = some false then !v ⟨k, hk⟩ else v ⟨k, hk⟩)
    rw [if_neg (by omega)]
  · have hne : j ≠ ⟨k, hk⟩ := fun hh => hjk (by rw [hh])
    rw [Function.update_noteq hne]
    show (if k ≤ (j : ℕ) ∧ (false :: rest)[(j : ℕ) - k]? = some false then !v j else v j) =
      (if k + 1 ≤ (j : ℕ) ∧ rest[(j : ℕ) - (k + 1)]? = some false then !v j else v j)
    by_cases hlt : (j : ℕ) < k
    · rw [if_neg (by omega), if_neg (by omega)]
    · have hgt : k < (j : ℕ) := by omega
      have hidx : (j : ℕ) - k = ((j : ℕ) - (k + 1)) + 1 := by omega
      rw [hidx, List.getElem?_cons_succ]
      have hiff : (k ≤ (j : ℕ) ∧ rest[(j : ℕ) - (k + 1)]? = some false) ↔
          (k + 1 ≤ (j : ℕ) ∧ rest[(j : ℕ) - (k + 1)]? = some false) := by
        constructor <;> rintro ⟨h1, h2⟩ <;> exact ⟨by omega, h2⟩
      rw [if_congr hiff rfl rfl]

theorem maskFlip_cons_true {n : ℕ} (rest : List Bool) (k : ℕ) (v : Fin n → Bool) :
    maskFlip (true :: rest) k v = maskFlip rest (k + 1) v := by
  funext j
  show (if k ≤ (j : ℕ) ∧ (true :: rest)[(j : ℕ) - k]? = some false then !v j else v j) =
    (if k + 1 ≤ (j : ℕ) ∧ rest[(j : ℕ) - (k + 1)]? = some false then !v j else v j)
  by_cases hjk : (j : ℕ) = k
  · rw [if_neg, if_neg]
    · omega
    · rw [hjk, Nat.sub_self, List.getElem?_cons_zero]
      rintro ⟨h1, h2⟩
      exact Bool.noConfusion (Option.some.injEq _ _ ▸ h2)
  · by_cases hlt : (j : ℕ) < k
    · rw [if_neg (by omega), if_neg (by omega)]
    · have hgt : k < (j : ℕ) := by omega
      have hidx : (j : ℕ) - k = ((j : ℕ) - (k + 1)) + 1 := by omega
      rw [hidx, List.getElem?_cons_succ]
      have hiff : (k ≤ (j : ℕ) ∧ rest[(j : ℕ) - (k + 1)]? = some false) ↔
          (k + 1 ≤ (j : ℕ) ∧ rest[(j : ℕ) - (k + 1)]? = some false) := by
        constructor <;> rintro ⟨h1, h2⟩ <;> exact ⟨by omega, h2⟩
      rw [if_congr hiff rfl rfl]

theorem applyGates_xLayer {n : ℕ} :
    ∀ (l : List Bool) (k : ℕ), k + l.length ≤ n → ∀ ψ : StateV n,
      applyGates (xLayerGates l k) ψ = fun v => ψ (maskFlip l k v) := by
  intro l
  induction l with
  | nil =>
      intro k hk ψ
      funext v
      rw [show xLayerGates [] k = [] from rfl, applyGates_nil]
      congr 1
      funext j
      show v j = (if k ≤ (j : ℕ) ∧ ([] : List Bool)[(j : ℕ) - k]? = some false
        then !v j else v j)
      rw [List.getElem?_nil, if_neg (by rintro ⟨h1, h2⟩; exact Option.noConfusion h2)]
  | cons b rest ih =>
      intro k hk ψ
      have hrest : (k + 1) + rest.length ≤ n := by
        simp only [List.length_cons] at hk
        omega
      have hkn : k < n := by
        simp only [List.length_cons] at hk
        omega
      cases b with
      | false =>
          rw [show xLayerGates (false :: rest) k = Gate.x k :: xLayerGates rest (k + 1)
            from by simp [xLayerGates]]
          rw [applyGates_cons, applyGate_x hkn, ih (k + 1) hrest]
          funext v
          show xGate ⟨k, hkn⟩ ψ (maskFlip rest (k + 1) v) = ψ (maskFlip (false :: rest) k v)
          rw [maskFlip_cons_false rest k hkn v]
          rfl
      | true =>
          rw [show xLayerGates (true :: rest) k = xLayerGates rest (k + 1)
            from by simp [xLayerGates]]
          rw [ih (k + 1) hrest]
          funext v
          rw [maskFlip_cons_true rest k v]

theorem maskFlip_involutive {n : ℕ} (l : List Bool) (k : ℕ) (v : Fin n → Bool) :
    maskFlip l k (maskFlip l k v) = v := by
  funext j
  simp only [maskFlip]
  by_cases hc : k ≤ (j : ℕ) ∧ l[(j : ℕ) - k]? = some false
  · rw [if_pos hc, if_pos hc, Bool.not_not]
  · rw [if_neg hc, if_neg hc]

theorem maskFlip_all_true_iff {n t : ℕ} (ht : t < 2 ^ n) (v : Fin n → Bool) :
    (∀ i, maskFlip (targetBin t n) 0 v i = true) ↔ v = markedVec t n := by
  constructor
  · intro hall
    funext j
    have h := hall j
    show v j = t.testBit (n - 1 - (j : ℕ))
    rw [show maskFlip (targetBin t n) 0 v j =
        (if 0 ≤ (j : ℕ) ∧ (targetBin t n)[(j : ℕ) - 0]? = some false then !v j else v j)
      from rfl] at h
    rw [Nat.sub_zero, targetBin_getElem ht j.isLt] at h
    cases hbit : t.testBit (n - 1 - (j : ℕ)) with
    | false =>
        rw [hbit] at h
        rw [if_pos ⟨Nat.zero_le _, rfl⟩] at h
        cases hv : v j
        · rfl
        · rw [hv] at h
          exact Bool.noConfusion h
    | true =>
        rw [hbit] at h
        rw [if_neg (fun hcc => Bool.noConfusion (Option.some.injEq _ _ ▸ hcc.2))] at h
        exact h
  · intro hv
    subst hv
    intro i
    show (if 0 ≤ (i : ℕ) ∧ (targetBin t n)[(i : ℕ) - 0]? = some false
      then !markedVec t n i else markedVec t n i) = true
    rw [Nat.sub_zero, targetBin_getElem ht i.isLt]
    cases hbit : t.testBit (n - 1 - (i : ℕ)) with
    | false =>
        rw [if_pos ⟨Nat.zero_le _, rfl⟩]
        show (!(markedVec t n i)) = true
        simp only [markedVec]
        rw [hbit]
        rfl
    | true =>
        rw [if_neg (fun hcc => Bool.noConfusion (Option.some.injEq _ _ ▸ hcc.2))]
        simp only [markedVec]
        rw [hbit]

theorem mczFull_apply {n : ℕ} (ψ : StateV n) (v : Fin n → Bool) :
    mczFull ψ v = if ∀ i, v i = true then -ψ v else ψ v := rfl

theorem build_grover_oracle_semantics {n : ℕ} (hn : 1 ≤ n) {t : ℕ} (ht : t < 2 ^ n)
    (ψ : StateV n) :
    applyGates (build_grover_oracle (targetBin t n) n) ψ = flipAt (markedVec t n) ψ := by
  have hlen : 0 + (targetBin t n).length ≤ n := by
    rw [targetBin_length ht]
    omega
  unfold build_grover_oracle
  rw [applyGates_append, applyGates_append,
    applyGates_xLayer (targetBin t n) 0 hlen ψ, applyGates_hmcxh hn,
    applyGates_xLayer (targetBin t n) 0 hlen]
  funext v
  show mczFull (fun w => ψ (maskFlip (targetBin t n) 0 w)) (maskFlip (targetBin t n) 0 v) =
    flipAt (markedVec t n) ψ v
  rw [mczFull_apply]
  rw [maskFlip_involutive (targetBin t n) 0 v]
  unfold flipAt
  have hiff : (∀ i, maskFlip (targetBin t n) 0 v i = true) ↔ v = markedVec t n :=
    maskFlip_all_true_iff ht v
  exact if_congr hiff rfl rfl

theorem applyGates_hLayer {n : ℕ} (ψ : StateV n) :
    applyGates ((List.range n).map Gate.h) ψ = applyHList (List.finRange n) ψ := by
  rw [range_map_h, applyGates_map_h]

theorem applyGates_xFullLayer {n : ℕ} (ψ : StateV n) :
    applyGates ((List.range n).map Gate.x) ψ = fun v => ψ (notVec v) := by
  rw [range_map_x, applyGates_map_x, applyXList_finRange]

theorem notVec_notVec {n : ℕ} (v : Fin n → Bool) : notVec (notVec v) = v := by
  funext i
  simp [notVec]

theorem xs_mcz_xs {n : ℕ} (χ : StateV n) :
    (fun v => mczFull (fun w => χ (notVec w)) (notVec v)) = flipZeroState χ := by
  funext v
  show (if ∀ i, notVec v i = true then -χ (notVec (notVec v)) else χ (notVec (notVec v))) =
    flipZeroState χ v
  rw [notVec_notVec]
  unfold flipZeroState
  apply if_congr ?_ rfl rfl
  constructor
  · intro hcc i
    cases hv : v i
    · rfl
    · have h := hcc i
      rw [show notVec v i = !v i from rfl, hv] at h
      exact Bool.noConfusion h
  · intro hcc i
    rw [show notVec v i = !v i from rfl, hcc i]
    rfl

theorem flipZeroState_eq {n : ℕ} (χ : StateV n) :
    flipZeroState χ =
      fun v => χ v + (-(2 : KC) * χ (zeroVec n)) * eVec (zeroVec n) v := by
  funext v
  unfold flipZeroState eVec
  by_cases hc : ∀ i, v i = false
  · have hv : v = zeroVec n := funext hc
    rw [if_pos hc, if_pos hv, hv]
    ring
  · have hv : ¬ v = zeroVec n := fun hh => hc (fun i => congrFun hh i)
    rw [if_neg hc, if_neg hv]
    ring

theorem build_diffusion_semantics {n : ℕ} (hn : 1 ≤ n) (ψ : StateV n) :
    applyGates (build_diffusion_operator n) ψ = fun v => ψ v - (2 : KC) * meanAmp ψ := by
  unfold build_diffusion_operator
  simp only [applyGates_append]
  simp only [applyGates_hLayer, applyGates_xFullLayer]
  rw [applyGates_hmcxh hn, xs_mcz_xs, flipZeroState_eq, applyHList_add, applyHList_smul]
  funext v
  rw [applyHList_involutive (List.nodup_finRange n) ψ]
  have hu : applyHList (List.finRange n) (eVec (zeroVec n)) = uniformState n := by
    rw [← basis0_eq_eVec, applyHList_basis0]
  rw [hu, applyHList_zeroRow ψ]
  show ψ v + -(2 : KC) * (sqrtHalf ^ n * sumAmp ψ) * sqrtHalf ^ n = ψ v - 2 * meanAmp ψ
  have hp : sqrtHalf ^ n * sqrtHalf ^ n = ratK (1 / 2 ^ n) := by
    rw [← pow_add]
    have h2 : n + n = 2 * n := by ring
    rw [h2, sqrtHalf_pow_two_mul]
    congr 1
    rw [div_pow, one_pow]
  show ψ v + -(2 : KC) * (sqrtHalf ^ n * sumAmp ψ) * sqrtHalf ^ n =
    ψ v - 2 * (ratK (1 / 2 ^ n) * sumAmp ψ)
  linear_combination (-(2 : KC) * sumAmp ψ) * hp

theorem normSq_parallelogram (x y : KC) :
    normSq (x + y) + normSq (x - y) = normSq x + normSq y + (normSq x + normSq y) := by
  simp only [normSq, Quad.add_re, Quad.add_im, Quad.sub_re, Quad.sub_im]
  ring

theorem two_mul_qrat_half : (2 : Qsqrt2) * qrat (1 / 2) = 1 := by
  have h2re : (2 : Qsqrt2).re = ((2 : ℕ) : ℚ) := rfl
  have h2im : (2 : Qsqrt2).im = (0 : ℚ) := rfl
  apply Quad.ext <;>
    simp only [Quad.mul_re, Quad.mul_im, qrat_re, qrat_im, Quad.one_re, Quad.one_im,
      h2re, h2im] <;>
    norm_num

theorem normSqSum_hGate {n : ℕ} (q : Fin n) (ψ : StateV n) :
    normSqSum (hGate q ψ) = normSqSum ψ := by
  unfold normSqSum
  rw [sum_split q (fun v => normSq (hGate q ψ v)), sum_split q (fun v => normSq (ψ v))]
  apply Finset.sum_congr rfl
  intro v hv
  have hvq : v q = false := (Finset.mem_filter.mp hv).2
  rw [hGate_at_false q ψ v hvq, hGate_at_true q ψ v hvq, normSq_mul, normSq_mul,
    normSq_sqrtHalf]
  have hpar := normSq_parallelogram (ψ v) (ψ (Function.update v q true))
  linear_combination qrat (1 / 2) * hpar +
    (normSq (ψ v) + normSq (ψ (Function.update v q true))) * two_mul_qrat_half

theorem flipOne_involutive {n : ℕ} (q : Fin n) : Function.Involutive (flipOne q) := by
  intro v
  unfold flipOne
  rw [Function.update_same, Function.update_idem, Bool.not_not, Function.update_eq_self]

theorem sum_comp_involutive {n : ℕ} {M : Type} [AddCommMonoid M]
    (σ : (Fin n → Bool) → (Fin n → Bool)) (hσ : Function.Involutive σ)
    (f : (Fin n → Bool) → M) : ∑ v : Fin n → Bool, f (σ v) = ∑ v : Fin n → Bool, f v :=
  Equiv.sum_comp hσ.toPerm f

theorem normSqSum_xGate {n : ℕ} (q : Fin n) (ψ : StateV n) :
    normSqSum (xGate q ψ) = normSqSum ψ :=
  sum_comp_involutive (flipOne q) (flipOne_involutive q) (fun w => normSq (ψ w))

theorem mcxPerm_involutive {n : ℕ} (cs : List ℕ) (tq : Fin n)
    (hct : ∀ c ∈ cs, c ≠ (tq : ℕ)) :
    Function.Involutive (fun v => if allCtrl cs v then flipOne tq v else v) := by
  intro v
  show (if allCtrl cs (if allCtrl cs v then flipOne tq v else v)
      then flipOne tq (if allCtrl cs v then flipOne tq v else v)
      else (if allCtrl cs v then flipOne tq v else v)) = v
  have hfc : allCtrl cs (flipOne tq v) = allCtrl cs v :=
    allCtrl_update cs tq hct v (!v tq)
  by_cases hc : allCtrl cs v = true
  · rw [if_pos hc, hfc, if_pos hc]
    exact flipOne_involutive tq v
  · rw [if_neg hc, if_neg hc]

theorem normSqSum_mcxGate {n : ℕ} (cs : List ℕ) (tq : Fin n)
    (hct : ∀ c ∈ cs, c ≠ (tq : ℕ)) (ψ : StateV n) :
    normSqSum (mcxGate cs tq ψ) = normSqSum ψ :=
  sum_comp_involutive _ (mcxPerm_involutive cs tq hct) (fun w => normSq (ψ w))

theorem normSqSum_applyGate {n : ℕ} (g : Gate) (ψ : StateV n) :
    normSqSum (applyGate g ψ) = normSqSum ψ := by
  cases g with
  | x q =>
      show normSqSum (if hq : q < n then xGate ⟨q, hq⟩ ψ else ψ) = normSqSum ψ
      by_cases hq : q < n
      · rw [dif_pos hq]
        exact normSqSum_xGate _ ψ
      · rw [dif_neg hq]
  | h q =>
      show normSqSum (if hq : q < n then hGate ⟨q, hq⟩ ψ else ψ) = normSqSum ψ
      by_cases hq : q < n
      · rw [dif_pos hq]
        exact normSqSum_hGate _ ψ
      · rw [dif_neg hq]
  | mcx cs t =>
      show normSqSum (if hv : (∀ c ∈ cs, c < n) ∧ t < n ∧ cs.Nodup ∧ t ∉ cs then
          mcxGate cs ⟨t, hv.2.1⟩ ψ else ψ) = normSqSum ψ
      by_cases hv : (∀ c ∈ cs, c < n) ∧ t < n ∧ cs.Nodup ∧ t ∉ cs
      · rw [dif_pos hv]
        refine normSqSum_mcxGate cs ⟨t, hv.2.1⟩ ?_ ψ
        intro c hc hh
        have hct : c = t := hh
        exact hv.2.2.2 (hct ▸ hc)
      · rw [dif_neg hv]

theorem normSqSum_applyGates {n : ℕ} (gs : List Gate) (ψ : StateV n) :
    normSqSum (applyGates gs ψ) = normSqSum ψ := by
  induction gs generalizing ψ with
  | nil => rfl
  | cons g rest ih => rw [applyGates_cons, ih, normSqSum_applyGate]

theorem normSq_pow (x : KC) (k : ℕ) : normSq (x ^ k) = normSq x ^ k := by
  induction k with
  | zero => simp [normSq_one]
  | succ m ih => rw [pow_succ, pow_succ, normSq_mul, ih]

theorem qrat_pow (a : ℚ) (m : ℕ) : qrat a ^ m = qrat (a ^ m) := by
  induction m with
  | zero => simp [qrat_one]
  | succ k ih => rw [pow_succ, pow_succ, ih, qrat_mul]

theorem natCast_eq_qrat (m : ℕ) : ((m : ℕ) : Qsqrt2) = qrat (m : ℚ) := rfl

theorem normSqSum_uniform (n : ℕ) : normSqSum (uniformState n) = 1 := by
  unfold normSqSum uniformState
  rw [Finset.sum_const, Finset.card_univ]
  have hcard : Fintype.card (Fin n → Bool) = 2 ^ n := by
    rw [Fintype.card_fun, Fintype.card_bool, Fintype.card_fin]
  rw [hcard, nsmul_eq_mul, normSq_pow, normSq_sqrtHalf, qrat_pow, natCast_eq_qrat,
    qrat_mul]
  have hq : ((2 ^ n : ℕ) : ℚ) * (1 / 2) ^ n = 1 := by
    push_cast
    rw [← mul_pow]
    norm_num
  rw [hq, qrat_one]

theorem sqrtHalf_im : sqrtHalf.im = 0 := rfl

theorem phase_im (b : Bool) : (phase b).im = 0 := by
  cases b
  · rfl
  · show (-1 : KC).im = 0
    simp

theorem KC_add_im_zero {x y : KC} (hx : x.im = 0) (hy : y.im = 0) : (x + y).im = 0 := by
  rw [Quad.add_im, hx, hy, add_zero]

theorem KC_mul_im_zero {x y : KC} (hx : x.im = 0) (hy : y.im = 0) : (x * y).im = 0 := by
  rw [Quad.mul_im, hx, hy]
  ring

theorem isReal_hGate {n : ℕ} (q : Fin n) {ψ : StateV n} (hψ : isReal ψ) :
    isReal (hGate q ψ) := by
  intro v
  unfold hGate
  exact KC_mul_im_zero sqrtHalf_im
    (KC_add_im_zero (hψ _) (KC_mul_im_zero (phase_im _) (hψ _)))

theorem isReal_applyGate {n : ℕ} (g : Gate) {ψ : StateV n} (hψ : isReal ψ) :
    isReal (applyGate g ψ) := by
  cases g with
  | x q =>
      show isReal (if hq : q < n then xGate ⟨q, hq⟩ ψ else ψ)
      by_cases hq : q < n
      · rw [dif_pos hq]
        intro v
        exact hψ _
      · rw [dif_neg hq]
        exact hψ
  | h q =>
      show isReal (if hq : q < n then hGate ⟨q, hq⟩ ψ else ψ)
      by_cases hq : q < n
      · rw [dif_pos hq]
        exact isReal_hGate _ hψ
      · rw [dif_neg hq]
        exact hψ
  | mcx cs t =>
      show isReal (if hv : (∀ c ∈ cs, c < n) ∧ t < n ∧ cs.Nodup ∧ t ∉ cs then
          mcxGate cs ⟨t, hv.2.1⟩ ψ else ψ)
      by_cases hv : (∀ c ∈ cs, c < n) ∧ t < n ∧ cs.Nodup ∧ t ∉ cs
      · rw [dif_pos hv]
        intro v
        exact hψ _
      · rw [dif_neg hv]
        exact hψ

theorem isReal_applyGates {n : ℕ} (gs : List Gate) {ψ : StateV n} (hψ : isReal ψ) :
    isReal (applyGates gs ψ) := by
  induction gs generalizing ψ with
  | nil => exact hψ
  | cons g rest ih => exact ih (isReal_applyGate g hψ)

theorem isReal_basis0 (n : ℕ) : isReal (basis0 n) := by
  intro v
  unfold basis0
  split
  · rfl
  · rfl

theorem sqrtHalf_pow_im (n : ℕ) : (sqrtHalf ^ n).im = 0 := by
  induction n with
  | zero => rfl
  | succ m ih => rw [pow_succ]; exact KC_mul_im_zero ih sqrtHalf_im

theorem isReal_uniformState (n : ℕ) : isReal (uniformState n) :=
  fun _ => sqrtHalf_pow_im n

theorem sumAmp_eVec {n : ℕ} (w : Fin n → Bool) : sumAmp (eVec w) = 1 := by
  unfold sumAmp eVec
  rw [Finset.sum_ite_eq' Finset.univ w (fun _ => (1 : KC))]
  simp

theorem sumAmp_basis0 (n : ℕ) : sumAmp (basis0 n) = 1 := by
  rw [basis0_eq_eVec, sumAmp_eVec]

theorem sumAmp_flipAt {n : ℕ} (w : Fin n → Bool) (ψ : StateV n) :
    sumAmp (flipAt w ψ) = sumAmp ψ - (2 : KC) * ψ w := by
  unfold sumAmp
  have hsummand : ∀ v, flipAt w ψ v = ψ v - (if v = w then (2 : KC) * ψ v else 0) := by
    intro v
    unfold flipAt
    by_cases hv : v = w
    · rw [if_pos hv, if_pos hv]
      ring
    · rw [if_neg hv, if_neg hv]
      ring
  rw [Finset.sum_congr rfl (fun v _ => hsummand v), Finset.sum_sub_distrib,
    Finset.sum_ite_eq' Finset.univ w (fun v => (2 : KC) * ψ v)]
  simp

theorem natCast_KC (m : ℕ) : ((m : ℕ) : KC) = ratK (m : ℚ) := rfl

theorem sumAmp_uniform (n : ℕ) : sumAmp (uniformState n) = ratK (2 ^ n) * sqrtHalf ^ n := by
  unfold sumAmp uniformState
  rw [Finset.sum_const, Finset.card_univ]
  have hcard : Fintype.card (Fin n → Bool) = 2 ^ n := by
    rw [Fintype.card_fun, Fintype.card_bool, Fintype.card_fin]
  rw [hcard, nsmul_eq_mul, natCast_KC]
  norm_num

theorem sqrtHalf_pow_four : sqrtHalf ^ 4 = ratK (1 / 4) := by
  rw [show (4 : ℕ) = 2 * 2 from rfl, sqrtHalf_pow_two_mul]
  norm_num

theorem ratK_two : (2 : KC) = ratK 2 := by
  apply Quad.ext
  · apply Quad.ext
    · show ((2 : ℕ) : ℚ) = 2
      norm_num
    · rfl
  · rfl

theorem meanAmp_basis0 (n : ℕ) : meanAmp (basis0 n) = ratK (1 / 2 ^ n) := by
  unfold meanAmp
  rw [sumAmp_basis0, mul_one]

theorem mean_flipAt_uniform_5_4 :
    meanAmp (flipAt (markedVec 5 4) (uniformState 4)) = ratK (7 / 32) := by
  unfold meanAmp
  rw [sumAmp_flipAt, sumAmp_uniform]
  rw [show uniformState 4 (markedVec 5 4) = sqrtHalf ^ 4 from rfl, sqrtHalf_pow_four,
    ratK_two, ratK_mul, ratK_mul, ratK_sub, ratK_mul]
  congr 1
  norm_num

theorem grover_final_5_4 :
    applyGates (build_grover_circuit 5 4 1) (basis0 4) =
      fun v => if v = markedVec 5 4 then ratK (-(11 / 16)) else ratK (-(3 / 16)) := by
  have hcirc : build_grover_circuit 5 4 1 =
      (List.range 4).map Gate.h ++
        (build_grover_oracle (targetBin 5 4) 4 ++ build_diffusion_operator 4) := by
    unfold build_grover_circuit
    rw [List.replicate_one, List.flatten_cons, List.flatten_nil, List.append_nil]
  rw [hcirc, applyGates_append, applyGates_hLayer, applyHList_basis0, applyGates_append,
    build_grover_oracle_semantics (show (1 : ℕ) ≤ 4 by norm_num)
      (show (5 : ℕ) < 2 ^ 4 by norm_num) (uniformState 4),
    build_diffusion_semantics (show (1 : ℕ) ≤ 4 by norm_num)]
  funext v
  rw [mean_flipAt_uniform_5_4]
  show flipAt (markedVec 5 4) (uniformState 4) v - 2 * ratK (7 / 32) = _
  unfold flipAt uniformState
  by_cases hv : v = markedVec 5 4
  · rw [if_pos hv, if_pos hv, sqrtHalf_pow_four, ratK_two, ratK_mul, ratK_neg, ratK_sub]
    congr 1
    norm_num
  · rw [if_neg hv, if_neg hv, sqrtHalf_pow_four, ratK_two, ratK_mul, ratK_sub]
    congr 1
    norm_num

theorem natOfVec_succ {n : ℕ} (v : Fin (n + 1) → Bool) :
    natOfVec v = cond (v 0) 1 0 + 2 * natOfVec (fun i : Fin n => v i.succ) := by
  unfold natOfVec
  rw [Fin.sum_univ_succ, Finset.mul_sum]
  have hsum : ∀ i : Fin n, (cond (v i.succ) (2 ^ ((i.succ : Fin (n + 1)) : ℕ)) 0) =
      2 * cond ((fun i : Fin n => v i.succ) i) (2 ^ (i : ℕ)) 0 := by
    intro i
    cases hv : v i.succ
    · simp [hv]
    · simp only [hv, cond_true, Fin.val_succ, pow_succ]
      ring
  rw [Finset.sum_congr rfl (fun i _ => hsum i)]
  have hhead : (cond (v 0) (2 ^ ((0 : Fin (n + 1)) : ℕ)) 0) = cond (v 0) 1 0 := by
    cases v 0 <;> rfl
  rw [hhead]

theorem testBit_zero_cond (b : Bool) (m : ℕ) : (cond b 1 0 + 2 * m).testBit 0 = b := by
  rw [Nat.testBit_zero]
  cases b
  · simp [Nat.add_mul_mod_self_left]
  · simp [Nat.add_mul_mod_self_left]

theorem testBit_succ_cond (b : Bool) (m i : ℕ) :
    (cond b 1 0 + 2 * m).testBit (i + 1) = m.testBit i := by
  rw [Nat.testBit_succ]
  congr 1
  cases b
  · show (0 + 2 * m) / 2 = m
    omega
  · show (1 + 2 * m) / 2 = m
    omega

theorem natOfVec_testBit {n : ℕ} (v : Fin n → Bool) (i : ℕ) :
    (natOfVec v).testBit i = if h : i < n then v ⟨i, h⟩ else false := by
  induction n generalizing i with
  | zero =>
      have h0 : natOfVec v = 0 := by simp [natOfVec]
      rw [h0, Nat.zero_testBit, dif_neg (by omega)]
  | succ m ih =>
      rw [natOfVec_succ]
      cases i with
      | zero =>
          rw [testBit_zero_cond, dif_pos (by omega)]
          rfl
      | succ j =>
          rw [testBit_succ_cond, ih]
          by_cases hj : j < m
          · rw [dif_pos hj, dif_pos (by omega : j + 1 < m + 1)]
            rfl
          · rw [dif_neg hj, dif_neg (by omega)]

theorem natOfVec_inj {n : ℕ} {v w : Fin n → Bool} (h : natOfVec v = natOfVec w) :
    v = w := by
  funext i
  have hb := congrArg (fun m => Nat.testBit m (i : ℕ)) h
  simp only at hb
  rw [natOfVec_testBit, natOfVec_testBit, dif_pos i.isLt, dif_pos i.isLt] at hb
  simpa using hb

theorem binToNat_append_singleton (l : List Bool) (b : Bool) :
    binToNat (l ++ [b]) = 2 * binToNat l + cond b 1 0 := by
  unfold binToNat
  rw [List.foldl_append]
  rfl

theorem binToNat_readout {n : ℕ} (v : Fin n → Bool) :
    binToNat (readoutString v) = natOfVec v := by
  induction n with
  | zero =>
      simp [readoutString, List.finRange_zero, binToNat, natOfVec]
  | succ m ih =>
      have h1 : readoutString v = ((List.finRange m).map Fin.succ).reverse.map v ++ [v 0] := by
        unfold readoutString
        rw [List.finRange_succ_eq_map, List.reverse_cons, List.map_append]
        rfl
      have h2 : ((List.finRange m).map Fin.succ).reverse.map v =
          readoutString (fun i : Fin m => v i.succ) := by
        rw [← List.map_reverse, List.map_map]
        rfl
      rw [h1, binToNat_append_singleton, h2, ih, natOfVec_succ]
      omega

theorem natOfVec_vecOfNat {n t : ℕ} (ht : t < 2 ^ n) : natOfVec (vecOfNat n t) = t := by
  apply Nat.eq_of_testBit_eq
  intro i
  rw [natOfVec_testBit]
  by_cases hi : i < n
  · rw [dif_pos hi]
    rfl
  · rw [dif_neg hi]
    exact (Nat.testBit_eq_false_of_lt
      (lt_of_lt_of_le ht (Nat.pow_le_pow_right (by norm_num) (by omega)))).symm

theorem readoutString_getElem {n : ℕ} (v : Fin n → Bool) {p : ℕ} (hp : p < n) :
    (readoutString v)[p]? = some (v ⟨n - 1 - p, by omega⟩) := by
  unfold readoutString
  rw [List.getElem?_map, List.getElem?_reverse (by rw [List.length_finRange]; exact hp),
    List.length_finRange]
  have hlt : n - 1 - p < (List.finRange n).length := by
    rw [List.length_finRange]
    omega
  rw [List.getElem?_eq_getElem hlt, List.getElem_finRange]
  rfl

theorem readoutString_length {n : ℕ} (v : Fin n → Bool) :
    (readoutString v).length = n := by
  unfold readoutString
  rw [List.length_map, List.length_reverse, List.length_finRange]

theorem targetBin_reverse_eq {n t : ℕ} (ht : t < 2 ^ n) :
    (targetBin t n).reverse = readoutString (markedVec t n) := by
  apply List.ext_getElem?
  intro p
  by_cases hp : p < n
  · rw [List.getElem?_reverse (by rw [targetBin_length ht]; exact hp),
      targetBin_length ht, readoutString_getElem (markedVec t n) hp,
      targetBin_getElem ht (show n - 1 - p < n by omega)]
    rfl
  · rw [List.getElem?_eq_none_iff.mpr (by rw [List.length_reverse, targetBin_length ht]; omega),
      List.getElem?_eq_none_iff.mpr (by rw [readoutString_length]; omega)]

theorem targetBin_eq_readout {n t : ℕ} (ht : t < 2 ^ n) :
    targetBin t n = readoutString (vecOfNat n t) := by
  apply List.ext_getElem?
  intro p
  by_cases hp : p < n
  · rw [targetBin_getElem ht hp, readoutString_getElem (vecOfNat n t) hp]
    rfl
  · rw [List.getElem?_eq_none_iff.mpr (by rw [targetBin_length ht]; omega),
      List.getElem?_eq_none_iff.mpr (by rw [readoutString_length]; omega)]

theorem binToNat_targetBin {n t : ℕ} (ht : t < 2 ^ n) : binToNat (targetBin t n) = t := by
  rw [targetBin_eq_readout ht, binToNat_readout, natOfVec_vecOfNat ht]

theorem bitRevIdx_eq_marked {n t : ℕ} (ht : t < 2 ^ n) :
    bitRevIdx n t = natOfVec (markedVec t n) := by
  unfold bitRevIdx
  rw [targetBin_reverse_eq ht, binToNat_readout]

theorem bitRev_palindrome_iff {n t : ℕ} (ht : t < 2 ^ n) :
    bitRevIdx n t = t ↔ (targetBin t n).reverse = targetBin t n := by
  constructor
  · intro h
    rw [bitRevIdx_eq_marked ht] at h
    have hvec : markedVec t n = vecOfNat n t :=
      natOfVec_inj (by rw [h, natOfVec_vecOfNat ht])
    rw [targetBin_reverse_eq ht, hvec, ← targetBin_eq_readout ht]
  · intro h
    unfold bitRevIdx
    rw [h, binToNat_targetBin ht]

theorem pyFold_mem :
    ∀ (rest : List (ℕ × ℕ)) (best : ℕ × ℕ),
      rest.foldl (fun best q => if best.2 < q.2 then q else best) best = best ∨
        rest.foldl (fun best q => if best.2 < q.2 then q else best) best ∈ rest := by
  intro rest
  induction rest with
  | nil => intro best; left; rfl
  | cons p rest ih =>
      intro best
      rw [List.foldl_cons]
      rcases ih (if best.2 < p.2 then p else best) with h | h
      · rw [h]
        by_cases hc : best.2 < p.2
        · right
          rw [if_pos hc]
          exact List.mem_cons_self p rest
        · left
          rw [if_neg hc]
      · right
        exact List.mem_cons_of_mem p h

theorem pyFold_ge :
    ∀ (rest : List (ℕ × ℕ)) (best p : ℕ × ℕ), (p = best ∨ p ∈ rest) →
      p.2 ≤ (rest.foldl (fun best q => if best.2 < q.2 then q else best) best).2 := by
  intro rest
  induction rest with
  | nil =>
      intro best p hp
      rcases hp with h | h
      · subst h
        exact le_refl _
      · cases h
  | cons q rest ih =>
      intro best p hp
      rw [List.foldl_cons]
      have hbest : best.2 ≤ (if best.2 < q.2 then q else best).2 := by
        by_cases hc : best.2 < q.2
        · rw [if_pos hc]; omega
        · rw [if_neg hc]
      have hq : q.2 ≤ (if best.2 < q.2 then q else best).2 := by
        by_cases hc : best.2 < q.2
        · rw [if_pos hc]
        · rw [if_neg hc]; omega
      rcases hp with h | h
      · calc p.2 = best.2 := by rw [h]
          _ ≤ _ := le_trans hbest (ih _ _ (Or.inl rfl))
      · rcases List.mem_cons.mp h with h2 | h2
        · calc p.2 = q.2 := by rw [h2]
            _ ≤ _ := le_trans hq (ih _ _ (Or.inl rfl))
        · exact ih _ p (Or.inr h2)

theorem pyMaxByCount_strict {l : List (ℕ × ℕ)} {k c : ℕ}
    (hmem : (k, c) ∈ l) (hmax : ∀ p ∈ l, p ≠ (k, c) → p.2 < c) :
    pyMaxByCount l = some (k, c) := by
  cases l with
  | nil => cases hmem
  | cons p rest =>
      show some (rest.foldl (fun best q => if best.2 < q.2 then q else best) p) = some (k, c)
      congr 1
      have hm := pyFold_mem rest p
      have hge := pyFold_ge rest p (k, c) (by
        rcases List.mem_cons.mp hmem with h | h
        · exact Or.inl h
        · exact Or.inr h)
      by_cases hr : rest.foldl (fun best q => if best.2 < q.2 then q else best) p = (k, c)
      · exact hr
      · exfalso
        have hmemr : rest.foldl (fun best q => if best.2 < q.2 then q else best) p ∈ p :: rest := by
          rcases hm with h | h
          · rw [h]; exact List.mem_cons_self p rest
          · exact List.mem_cons_of_mem p h
        have hlt := hmax _ hmemr hr
        omega

theorem aggregateResult_strict {l : List (ℕ × ℕ)} {k c : ℕ}
    (hmem : (k, c) ∈ l) (hmax : ∀ p ∈ l, p ≠ (k, c) → p.2 < c) :
    aggregateResult l = some k := by
  unfold aggregateResult
  rw [pyMaxByCount_strict hmem hmax]
  rfl

theorem specDefaultIterations_four : specDefaultIterations 4 = 3 := by
  unfold specDefaultIterations
  have hsqrt : Real.sqrt ((2 : ℝ) ^ 4) = 4 := by
    rw [show ((2 : ℝ) ^ 4) = 4 ^ 2 by norm_num, Real.sqrt_sq (by norm_num : (0 : ℝ) ≤ 4)]
  rw [hsqrt, show Real.pi / 4 * 4 = Real.pi by ring]
  have hfloor : Nat.floor Real.pi = 3 := by
    rw [Nat.floor_eq_iff (le_of_lt Real.pi_pos)]
    constructor
    · push_cast
      exact le_of_lt Real.pi_gt_three
    · push_cast
      have := Real.pi_lt_d2
      linarith
  rw [hfloor]
  omega

theorem flipAt_flipAt {n : ℕ} (w : Fin n → Bool) (ψ : StateV n) :
    flipAt w (flipAt w ψ) = ψ := by
  funext v
  by_cases hv : v = w <;> simp [flipAt, hv]

theorem basis0_at_zero (n : ℕ) : basis0 n (zeroVec n) = 1 := by
  unfold basis0
  exact if_pos (fun i => rfl)

/-- Claim C1 counterexample: with n = 4, targetIndex = 5 and iterations = 1,
the final probability of measuring index 5 is 9/256, far below 0.9, so the
claimed behavior fails at this exact input. -/
theorem C1_counterexample :
    normSq (applyGates (build_grover_circuit 5 4 1) (basis0 4) (vecOfNat 4 5)) =
      qrat (9 / 256) ∧ (9 : ℚ) / 256 < 9 / 10 := by
  constructor
  · rw [grover_final_5_4]
    simp only []
    rw [if_neg (by decide : ¬ vecOfNat 4 5 = markedVec 5 4), normSq_ratK]
    congr 1
    norm_num
  · norm_num

/-- Claim C1 (amended): with n = 4, targetIndex = 5 and iterations = 1, the
final distribution puts probability 121/256 (about 0.47, still below 0.9) on
index 10, which is the bit-reversed readout of 5, and probability 9/256
(below 0.1) on every other index; index 5 itself has probability 9/256, so
the most likely measured index is 10, not 5. -/
theorem C1_amended :
    (∀ v : Fin 4 → Bool,
      normSq (applyGates (build_grover_circuit 5 4 1) (basis0 4) v) =
        if natOfVec v = 10 then qrat (121 / 256) else qrat (9 / 256)) ∧
    natOfVec (markedVec 5 4) = 10 ∧ bitRevIdx 4 5 = 10 ∧
    (9 : ℚ) / 256 < 1 / 10 ∧ (121 : ℚ) / 256 < 9 / 10 := by
  refine ⟨?_, by decide, by decide, by norm_num, by norm_num⟩
  intro v
  rw [grover_final_5_4]
  simp only []
  have hiff : (natOfVec v = 10) ↔ (v = markedVec 5 4) := by
    constructor
    · intro h
      exact natOfVec_inj (by rw [h]; decide)
    · intro h
      rw [h]
      decide
  by_cases hv : v = markedVec 5 4
  · rw [if_pos hv, if_pos (hiff.mpr hv), normSq_ratK]
    congr 1
    norm_num
  · rw [if_neg hv, if_neg (fun hc => hv (hiff.mp hc)), normSq_ratK]
    congr 1
    norm_num

/-- Claim C2 counterexample: applying the diffusion circuit on 2 qubits to
the basis state at index 0 yields amplitude 1/2 there, while the claimed
reflection about the mean, 2 mu minus a, yields -1/2; the circuit computes
the negation of the claimed value. -/
theorem C2_counterexample :
    applyGates (build_diffusion_operator 2) (basis0 2) (zeroVec 2) = ratK (1 / 2) ∧
    (2 : KC) * meanAmp (basis0 2) - basis0 2 (zeroVec 2) = ratK (-(1 / 2)) ∧
    applyGates (build_diffusion_operator 2) (basis0 2) (zeroVec 2) ≠
      (2 : KC) * meanAmp (basis0 2) - basis0 2 (zeroVec 2) := by
  have h1 : applyGates (build_diffusion_operator 2) (basis0 2) (zeroVec 2) =
      ratK (1 / 2) := by
    rw [build_diffusion_semantics (by norm_num : 1 ≤ 2) (basis0 2)]
    show basis0 2 (zeroVec 2) - 2 * meanAmp (basis0 2) = ratK (1 / 2)
    rw [basis0_at_zero, meanAmp_basis0, ratK_two, ratK_mul,
      show (1 : KC) = ratK 1 from ratK_one.symm, ratK_sub]
    congr 1
    norm_num
  have h2 : (2 : KC) * meanAmp (basis0 2) - basis0 2 (zeroVec 2) = ratK (-(1 / 2)) := by
    rw [basis0_at_zero, meanAmp_basis0, ratK_two, ratK_mul,
      show (1 : KC) = ratK 1 from ratK_one.symm, ratK_sub]
    congr 1
    norm_num
  refine ⟨h1, h2, ?_⟩
  rw [h1, h2]
  intro h
  have := ratK_inj h
  norm_num at this

/-- Claim C2 (amended): for every register size n with at least one qubit
and every state, the diffusion circuit replaces each amplitude a with
a - 2 mu, the negation of the claimed reflection 2 mu - a about the mean mu;
the mean is that of the state before any entry changes. -/
theorem C2_amended (n : ℕ) (hn : 1 ≤ n) (ψ : StateV n) (v : Fin n → Bool) :
    applyGates (build_diffusion_operator n) ψ v = ψ v - (2 : KC) * meanAmp ψ :=
  congrFun (build_diffusion_semantics hn ψ) v

theorem C2_witness :
    1 ≤ 2 ∧
    applyGates (build_diffusion_operator 2) (basis0 2) (zeroVec 2) =
      basis0 2 (zeroVec 2) - (2 : KC) * meanAmp (basis0 2) :=
  ⟨by norm_num, C2_amended 2 (by norm_num) (basis0 2) (zeroVec 2)⟩

/-- Claim C3 counterexample: the iteration count used when the caller
supplies none is the fixed constant 1 from the function signature, while
the claimed formula floor(pi/4 sqrt N) clamped to 1 gives 3 at the default
register size n = 4. -/
theorem C3_counterexample :
    defaultIterations = 1 ∧ specDefaultIterations 4 = 3 ∧
    specDefaultIterations 4 ≠ defaultIterations := by
  refine ⟨rfl, specDefaultIterations_four, ?_⟩
  rw [specDefaultIterations_four]
  decide

/-- Claim C3 (amended): when the caller does not supply an iteration count,
the program uses the constant default 1 regardless of n (the circuit built
without an iteration argument is the one-iteration circuit for every n),
not the spec formula floor(pi/4 sqrt N), which evaluates to 3 at n = 4. -/
theorem C3_amended :
    (∀ t n : ℕ, build_grover_circuit t n = build_grover_circuit t n defaultIterations) ∧
    defaultIterations = 1 ∧ specDefaultIterations 4 = 3 :=
  ⟨fun _ _ => rfl, rfl, specDefaultIterations_four⟩

/-- Claim C4 counterexample: the out-of-range target 17 with n = 4 does not
fail at all: every gate of its circuit is constructible on 4 qubits, so the
search silently proceeds instead of failing with a typed IndexOutOfRange. -/
theorem C4_counterexample :
    circuitOk 4 (build_grover_circuit 17 4 1) = true ∧ ¬ (17 < 2 ^ 4) := by
  constructor
  · decide
  · decide

/-- Claim C4 (amended): no range validation exists; target 16 with n = 4
fails only because the oracle construction applies an X gate to qubit index
4, which is outside the 4-qubit register (a generic circuit construction
error, not a typed IndexOutOfRange raised before the run), while the
out-of-range target 17 builds successfully and runs silently. -/
theorem C4_amended :
    circuitOk 4 (build_grover_circuit 16 4 1) = false ∧
    Gate.x 4 ∈ build_grover_circuit 16 4 1 ∧
    gateOk 4 (Gate.x 4) = false ∧
    circuitOk 4 (build_grover_circuit 17 4 1) = true := by
  refine ⟨by decide, by decide, by decide, by decide⟩

/-- Claim C5 counterexample: on the tie mapping with counts 50 for outcomes
9 and 2, presented in the iteration order listing 9 first, the aggregation
returns 9, not the smallest index 2. -/
theorem C5_counterexample :
    aggregateResult [(9, 50), (2, 50)] = some 9 ∧ (9 : ℕ) ≠ 2 := by
  constructor
  · decide
  · decide

/-- Claim C5 (amended): aggregation returns the outcome whose count is
strictly highest whenever one exists, for example 7 on the mapping with
counts 40 and 60 in either order; on a tie it returns whichever tied
outcome appears first in the iteration order of the mapping, not
necessarily the smallest index. -/
theorem C5_amended :
    (∀ (l : List (ℕ × ℕ)) (k c : ℕ), (k, c) ∈ l →
      (∀ p ∈ l, p ≠ (k, c) → p.2 < c) → aggregateResult l = some k) ∧
    aggregateResult [(3, 40), (7, 60)] = some 7 ∧
    aggregateResult [(7, 60), (3, 40)] = some 7 ∧
    aggregateResult [(2, 50), (9, 50)] = some 2 ∧
    aggregateResult [(9, 50), (2, 50)] = some 9 := by
  refine ⟨fun l k c hmem hmax => aggregateResult_strict hmem hmax,
    by decide, by decide, by decide, by decide⟩

theorem C5_witness :
    ((7, 60) ∈ [(3, 40), (7, 60)]) ∧ aggregateResult [(3, 40), (7, 60)] = some 7 :=
  ⟨by decide, C5_amended.1 [(3, 40), (7, 60)] 7 60 (by decide) (by decide)⟩

theorem normSqSum_applyOps (t n : ℕ) (ops : List GOp) (ψ : StateV n) :
    normSqSum (applyOps t n ops ψ) = normSqSum ψ := by
  induction ops generalizing ψ with
  | nil => rfl
  | cons op rest ih =>
      show normSqSum (applyOps t n rest (applyGates (opGates t n op) ψ)) = normSqSum ψ
      rw [ih, normSqSum_applyGates]

/-- Claim C6 (confirmed): for every register size n with at least one
qubit, every valid target index, and every finite sequence of oracle and
diffusion applications starting from the uniform state, the sum of squared
amplitude magnitudes equals 1 exactly (so in particular within any
tolerance), after initialization and after each operator application. -/
theorem C6_norm_invariant (n t : ℕ) (hn : 1 ≤ n) (ht : t < 2 ^ n)
    (ops : List GOp) :
    normSqSum (applyOps t n ops (uniformState n)) = 1 := by
  rw [normSqSum_applyOps, normSqSum_uniform]

theorem C6_witness :
    1 ≤ 4 ∧ 5 < 2 ^ 4 ∧
    normSqSum (applyOps 5 4 [GOp.oracle, GOp.diffusion] (uniformState 4)) = 1 :=
  ⟨by norm_num, by norm_num,
    C6_norm_invariant 4 5 (by norm_num) (by norm_num) [GOp.oracle, GOp.diffusion]⟩

/-- Claim C7 (confirmed): for every valid target index and every state,
the oracle circuit negates the amplitude of exactly one basis state and
leaves every other amplitude unchanged; hence every amplitude magnitude,
and the total probability mass, is unchanged. -/
theorem C7_oracle_phase_flip (n t : ℕ) (hn : 1 ≤ n) (ht : t < 2 ^ n)
    (ψ : StateV n) :
    ∃ m : Fin n → Bool,
      applyGates (build_grover_oracle (targetBin t n) n) ψ m = -(ψ m) ∧
      (∀ v, v ≠ m → applyGates (build_grover_oracle (targetBin t n) n) ψ v = ψ v) ∧
      (∀ v, normSq (applyGates (build_grover_oracle (targetBin t n) n) ψ v) =
        normSq (ψ v)) ∧
      normSqSum (applyGates (build_grover_oracle (targetBin t n) n) ψ) = normSqSum ψ := by
  refine ⟨markedVec t n, ?_, ?_, ?_, ?_⟩
  · rw [build_grover_oracle_semantics hn ht ψ]
    unfold flipAt
    rw [if_pos rfl]
  · intro v hv
    rw [build_grover_oracle_semantics hn ht ψ]
    unfold flipAt
    rw [if_neg hv]
  · intro v
    rw [build_grover_oracle_semantics hn ht ψ]
    unfold flipAt
    by_cases hv : v = markedVec t n
    · rw [if_pos hv, normSq_neg]
    · rw [if_neg hv]
  · exact normSqSum_applyGates _ ψ

theorem C7_witness :
    1 ≤ 4 ∧ 5 < 2 ^ 4 ∧
    ∃ m : Fin 4 → Bool,
      applyGates (build_grover_oracle (targetBin 5 4) 4) (uniformState 4) m =
        -(uniformState 4 m) ∧
      (∀ v, v ≠ m →
        applyGates (build_grover_oracle (targetBin 5 4) 4) (uniformState 4) v =
          uniformState 4 v) ∧
      (∀ v, normSq (applyGates (build_grover_oracle (targetBin 5 4) 4) (uniformState 4) v) =
        normSq (uniformState 4 v)) ∧
      normSqSum (applyGates (build_grover_oracle (targetBin 5 4) 4) (uniformState 4)) =
        normSqSum (uniformState 4) :=
  ⟨by norm_num, by norm_num,
    C7_oracle_phase_flip 4 5 (by norm_num) (by norm_num) (uniformState 4)⟩

/-- Claim C8 (confirmed): every gate of the program preserves
real-valuedness of the state, the uniform initial state is real, and every
prefix of the Grover circuit leaves the register state purely real when run
from the all-zeros initial state, so a real-arithmetic implementation is
faithful. -/
theorem C8_real_amplitudes :
    (∀ (n : ℕ) (gs : List Gate) (ψ : StateV n), isReal ψ → isReal (applyGates gs ψ)) ∧
    (∀ n : ℕ, isReal (uniformState n)) ∧
    (∀ (t n iters : ℕ) (gs₁ gs₂ : List Gate),
      build_grover_circuit t n iters = gs₁ ++ gs₂ →
      isReal (applyGates gs₁ (basis0 n))) :=
  ⟨fun _ gs _ hψ => isReal_applyGates gs hψ,
    fun n => isReal_uniformState n,
    fun _ n _ gs₁ _ _ => isReal_applyGates gs₁ (isReal_basis0 n)⟩

theorem C8_witness :
    build_grover_circuit 5 4 1 = build_grover_circuit 5 4 1 ++ [] ∧
    isReal (applyGates (build_grover_circuit 5 4 1) (basis0 4)) :=
  ⟨(List.append_nil _).symm,
    C8_real_amplitudes.2.2 5 4 1 (build_grover_circuit 5 4 1) []
      (List.append_nil _).symm⟩

/-- Claim C9 (confirmed): for every n of at least two qubits and every
target index below 2 to the n, the single basis state whose amplitude the
oracle circuit negates is the one whose measured integer, read off with the
qiskit convention that forms the returned int, is the bit-reversal of the
targets n-bit binary string; that bit-reversal equals the target exactly
when the binary string is a palindrome. -/
theorem C9_bit_reversal (n t : ℕ) (hn : 2 ≤ n) (ht : t < 2 ^ n) :
    (∀ (ψ : StateV n) (v : Fin n → Bool),
      applyGates (build_grover_oracle (targetBin t n) n) ψ v =
        if binToNat (readoutString v) = bitRevIdx n t then -(ψ v) else ψ v) ∧
    (bitRevIdx n t = t ↔ (targetBin t n).reverse = targetBin t n) := by
  constructor
  · intro ψ v
    rw [build_grover_oracle_semantics (by omega) ht ψ]
    unfold flipAt
    have hiff : (binToNat (readoutString v) = bitRevIdx n t) ↔ (v = markedVec t n) := by
      rw [binToNat_readout, bitRevIdx_eq_marked ht]
      constructor
      · intro h
        exact natOfVec_inj h
      · intro h
        rw [h]
    exact (if_congr hiff rfl rfl).symm
  · exact bitRev_palindrome_iff ht

theorem C9_witness :
    2 ≤ 4 ∧ 5 < 2 ^ 4 ∧
    ((∀ (ψ : StateV 4) (v : Fin 4 → Bool),
      applyGates (build_grover_oracle (targetBin 5 4) 4) ψ v =
        if binToNat (readoutString v) = bitRevIdx 4 5 then -(ψ v) else ψ v) ∧
    (bitRevIdx 4 5 = 5 ↔ (targetBin 5 4).reverse = targetBin 5 4)) :=
  ⟨by norm_num, by norm_num, C9_bit_reversal 4 5 (by norm_num) (by norm_num)⟩

theorem meanAmp_sub_const {n : ℕ} (ψ : StateV n) (c : KC) :
    meanAmp (fun v => ψ v - c) = meanAmp ψ - c := by
  unfold meanAmp sumAmp
  rw [Finset.sum_sub_distrib, Finset.sum_const, Finset.card_univ]
  have hcard : Fintype.card (Fin n → Bool) = 2 ^ n := by
    rw [Fintype.card_fun, Fintype.card_bool, Fintype.card_fin]
  rw [hcard, nsmul_eq_mul, natCast_KC]
  have hinv : ratK (1 / 2 ^ n) * ratK ((2 ^ n : ℕ) : ℚ) = 1 := by
    rw [ratK_mul, show ((1 : ℚ) / 2 ^ n) * ((2 ^ n : ℕ) : ℚ) = 1 by
      push_cast
      field_simp]
    exact ratK_one
  linear_combination (-c) * hinv

/-- Claim C10 (confirmed): for every register of at least one qubit and
every valid target, the oracle circuit and the diffusion circuit are each
self-inverse: applying either twice in succession returns every state
vector to its original value. -/
theorem C10_self_inverse (n t : ℕ) (hn : 1 ≤ n) (ht : t < 2 ^ n) (ψ : StateV n) :
    applyGates (build_grover_oracle (targetBin t n) n)
        (applyGates (build_grover_oracle (targetBin t n) n) ψ) = ψ ∧
    applyGates (build_diffusion_operator n)
        (applyGates (build_diffusion_operator n) ψ) = ψ := by
  constructor
  · rw [build_grover_oracle_semantics hn ht ψ,
      build_grover_oracle_semantics hn ht (flipAt (markedVec t n) ψ),
      flipAt_flipAt]
  · rw [build_diffusion_semantics hn ψ,
      build_diffusion_semantics hn (fun v => ψ v - (2 : KC) * meanAmp ψ)]
    funext v
    rw [meanAmp_sub_const]
    show ψ v - 2 * meanAmp ψ - 2 * (meanAmp ψ - 2 * meanAmp ψ) = ψ v
    ring

theorem C10_witness :
    1 ≤ 2 ∧ 1 < 2 ^ 2 ∧
    (applyGates (build_grover_oracle (targetBin 1 2) 2)
        (applyGates (build_grover_oracle (targetBin 1 2) 2) (basis0 2)) = basis0 2 ∧
    applyGates (build_diffusion_operator 2)
        (applyGates (build_diffusion_operator 2) (basis0 2)) = basis0 2) :=
  ⟨by norm_num, by norm_num, C10_self_inverse 2 1 (by norm_num) (by norm_num) (basis0 2)⟩
